import Mathlib

/-!
Verification of the structural SQL-AST differencing engine described in
`spec.md` of the hex-inc/sqlglot repository.

The repository snapshot contains the diff engine's test suite
(`tests/test_diff.py`) but not the engine module itself (`sqlglot/diff.py`),
so the engine is modelled here from the specification (sections 3, 4, 6 and 7
of `spec.md`): the expression-tree data model with tags, scalar slots and
child slots; the pre-matching validator; the correspondence matcher
(bottom-up exact pass plus top-down tag/similarity heuristic pass); and the
edit classifier with its LCS-based sequence aligner.  Where the specification
leaves a deterministic tie-break open (its section 9 explicitly delegates the
choice), the model fixes the documented left-to-right, position-based rule,
in the way that is consistent with the behaviour pinned by the repository's
test suite.
-/

namespace SqlDiff

mutual
/-- Modelled from the spec: the node schema of the expression tree
(`spec.md` section 3).  A node has a `tag` (its semantic kind), an ordered
list of named scalar slots (strings standing for the string/boolean/number
scalar values), and an ordered sequence of child nodes.  Single-child slots
and list slots are both represented by their left-to-right sequence of child
nodes, which is the order the classifier's sequence aligner works on; scalar
slots participate in identity but are never traversable children. -/
inductive Node where
  | mk (tag : String) (scalars : List (String × String)) (kids : NodeList)
/-- Child sequence of a `Node`, a separate mutual type so that structural
recursion and derived decidable equality are available. -/
inductive NodeList where
  | nil
  | cons (head : Node) (tail : NodeList)
end

deriving instance DecidableEq for Node, NodeList

/-- A path addresses a node inside a tree by the child indices walked from
the root.  Paths play the role of node identity (`id()` in the original
engine): the same value occurring at two places is two distinct nodes. -/
abbrev Path := List Nat

/-- Convert the child sequence to an ordinary list. -/
def NodeList.toList : NodeList → List Node
  | .nil => []
  | .cons h t => h :: t.toList

/-- Build a child sequence from an ordinary list. -/
def NodeList.ofList : List Node → NodeList
  | [] => .nil
  | x :: xs => .cons x (ofList xs)

/-- The tag of a node. -/
def Node.tag : Node → String
  | .mk t _ _ => t

/-- The scalar slots of a node. -/
def Node.scalars : Node → List (String × String)
  | .mk _ s _ => s

/-- The child sequence of a node. -/
def Node.kids : Node → NodeList
  | .mk _ _ k => k

/-- A node is a leaf when it has no child slots (scalar slots do not count:
per the spec they are never matchable subtrees). -/
def Node.isLeaf (n : Node) : Bool := n.kids.toList.isEmpty

/-- A located node: its path in the tree it belongs to, together with the
subtree rooted there.  Edit operations reference located nodes, so that
identical-looking edits at different tree positions remain distinct
(`spec.md` section 6). -/
abbrev Loc := Path × Node

mutual
/-- Preorder traversal of a tree, every node paired with its path.
`p` is the path of the root being traversed. -/
def preorderNode (p : Path) : Node → List Loc
  | .mk t s kids => (p, .mk t s kids) :: preorderKids p 0 kids
/-- Preorder traversal of the children of a node at path `p`, the first
child listed having index `i`. -/
def preorderKids (p : Path) (i : Nat) : NodeList → List Loc
  | .nil => []
  | .cons h t => preorderNode (p ++ [i]) h ++ preorderKids p (i + 1) t
end

/-- The located children of a located node. -/
def kidsLoc (x : Loc) : List Loc :=
  x.2.kids.toList.enum.map fun ik => (x.1 ++ [ik.1], ik.2)

/-- The located leaves of the subtree rooted at a located node. -/
def leavesUnder (x : Loc) : List Loc :=
  (preorderNode x.1 x.2).filter fun y => y.2.isLeaf

/-- Number of elements of `seen` whose node is structurally equal to `v`.
Used to assign occurrence indices during the bottom-up exact pass. -/
def occOf (v : Node) (seen : List Loc) : Nat :=
  ((seen.filter fun y => y.2 == v)).length

/-- Annotate each located node with its occurrence index: how many earlier
nodes of the traversal carry a structurally equal subtree.  `seen` is the
accumulator of nodes already passed. -/
def withOccAux (seen : List Loc) : List Loc → List (Loc × Nat)
  | [] => []
  | x :: xs => (x, occOf x.2 seen) :: withOccAux (seen ++ [x]) xs

/-- Annotate a traversal with occurrence indices, starting from nothing
seen. -/
def withOcc (l : List Loc) : List (Loc × Nat) := withOccAux [] l

/-- Modelled from the spec: the bottom-up exact pass of the correspondence
matcher (`spec.md` section 4.3, step 3).  Structural hashing is modelled by
structural equality itself (the spec requires hash equality to coincide with
structural identity, with an exact fallback for collisions).  Every
unmatched source node is paired with the target node of equal structure and
equal occurrence index, so repeated identical subtrees are anchored to the
occurrence in the structurally corresponding position (the deterministic
left-to-right tie-break the spec's section 9 asks the implementer to fix). -/
def exactPairs (srcFree tgtFree : List Loc) : List (Loc × Loc) :=
  (withOcc srcFree).filterMap fun sk =>
    match (withOcc tgtFree).find? (fun tk => tk.1.2 == sk.1.2 && tk.2 == sk.2) with
    | some tk => some (sk.1, tk.1)
    | none => none

/-- Number of matched leaf pairs connecting the subtree at `s` with the
subtree at `t`: pairs of the correspondence built so far whose source lies
on a leaf of `s` and whose target lies on a leaf of `t`. -/
def commonLeafCount (M : List (Loc × Loc)) (s t : Loc) : Nat :=
  (M.filter fun pr =>
    ((leavesUnder s).map Prod.fst).contains pr.1.1 &&
    ((leavesUnder t).map Prod.fst).contains pr.2.1).length

/-- Modelled from the spec: the plausibility criterion of the top-down
heuristic pass (`spec.md` section 4.3, step 4).  Two nodes can be paired
when their tags agree and enough of their leaf content is already matched
to each other: at least one common matched leaf, and at least half of the
larger leaf count (the concrete threshold realising the spec's "plausible
match" / "can be reconciled" wording, fixed so that the documented
behaviours of the engine's test suite hold).  A leaf never qualifies with
another leaf here: leaves are matched by the exact pass alone, which is why
two function-call leaves with different names are never paired. -/
def candidate (M : List (Loc × Loc)) (s t : Loc) : Bool :=
  s.2.tag == t.2.tag && decide (0 < commonLeafCount M s t ∧
    max (leavesUnder s).length (leavesUnder t).length ≤ 2 * commonLeafCount M s t)

/-- Greedy injective pairing: process the rows in order, each row taking the
first still-available column related to it by `E`.  This is the spec's
"breaking ties by position" rule for the top-down pass. -/
def greedy (E : Loc → Loc → Bool) : List Loc → List Loc → List (Loc × Loc)
  | [], _ => []
  | r :: rs, cols =>
    match cols.find? (E r) with
    | some c => (r, c) :: greedy E rs (cols.erase c)
    | none => greedy E rs cols

/-- Source paths of a correspondence. -/
def sourcePaths (M : List (Loc × Loc)) : List Path := M.map fun pr => pr.1.1

/-- Target paths of a correspondence. -/
def targetPaths (M : List (Loc × Loc)) : List Path := M.map fun pr => pr.2.1

/-- Resolve caller-supplied pre-matching path pairs to located nodes of the
two trees; pairs naming a path absent from either tree bind nothing. -/
def resolvePre (srcNodes tgtNodes : List Loc) (pre : List (Path × Path)) :
    List (Loc × Loc) :=
  pre.filterMap fun pq =>
    match srcNodes.find? (fun x => x.1 == pq.1),
        tgtNodes.find? (fun y => y.1 == pq.2) with
    | some s, some t => some (s, t)
    | _, _ => none

/-- Modelled from the spec: the correspondence matcher (`spec.md` section
4.3).  Pre-matched pairs are inserted first as fixed points; the bottom-up
exact pass then pairs structurally identical unmatched nodes; finally the
top-down heuristic pass greedily pairs remaining nodes of equal tag with
sufficiently matched leaf content, in preorder with position tie-breaks.
The result is a partial injective list of matched located pairs. -/
def correspondence (source target : Node) (pre : List (Path × Path)) :
    List (Loc × Loc) :=
  let srcNodes := preorderNode [] source
  let tgtNodes := preorderNode [] target
  let preM := resolvePre srcNodes tgtNodes pre
  let srcFree := srcNodes.filter fun x => !(pre.map Prod.fst).contains x.1
  let tgtFree := tgtNodes.filter fun y => !(pre.map Prod.snd).contains y.1
  let exact := exactPairs srcFree tgtFree
  let m0 := preM ++ exact
  let srcRem := srcFree.filter fun x => !(sourcePaths m0).contains x.1
  let tgtRem := tgtFree.filter fun y => !(targetPaths m0).contains y.1
  m0 ++ greedy (candidate m0) srcRem tgtRem

/-- An edit operation of the computed script (`spec.md` sections 3 and 6).
Operations reference located nodes, so equality is operation kind plus the
structural identity of the referenced positions. -/
inductive Edit where
  | keep (source target : Loc)
  | update (source target : Loc)
  | move (source target : Loc)
  | insert (node : Loc)
  | remove (node : Loc)
deriving DecidableEq

/-- Whether an edit is a `keep` (suppressed in delta-only mode). -/
def Edit.isKeep : Edit → Bool
  | .keep _ _ => true
  | _ => false

/-- Whether an edit is an `insert`. -/
def Edit.isInsert : Edit → Bool
  | .insert _ => true
  | _ => false

/-- Whether an edit is a `remove`. -/
def Edit.isRemove : Edit → Bool
  | .remove _ => true
  | _ => false

/-- Whether an edit is an `update`. -/
def Edit.isUpdate : Edit → Bool
  | .update _ _ => true
  | _ => false

/-- Whether an edit is a `move`. -/
def Edit.isMove : Edit → Bool
  | .move _ _ => true
  | _ => false

/-- The error taxonomy of the engine (`spec.md` section 7): the single
recoverable error class, raised for invalid pre-matchings. -/
inductive DiffError where
  | configurationError (msg : String)
deriving DecidableEq

/-- Modelled from the spec: longest-common-subsequence alignment of two
child sequences, two children being alignable exactly when `m` relates them
(i.e. they are correspondents, `spec.md` section 4.4).  When the heads do
not align, the longer of the two tail alignments is kept, a tie preferring
the alignment that skips the source head — the deterministic tie-break
consistent with the move reported by the engine's test suite for a swapped
operand pair. -/
def lcsAux (m : Loc → Loc → Bool) : Nat → List Loc → List Loc → List (Loc × Loc)
  | 0, _, _ => []
  | _ + 1, [], _ => []
  | _ + 1, _ :: _, [] => []
  | fuel + 1, x :: xs, y :: ys =>
    if m x y then (x, y) :: lcsAux m fuel xs ys
    else
      let l1 := lcsAux m fuel xs (y :: ys)
      let l2 := lcsAux m fuel (x :: xs) ys
      if l1.length < l2.length then l2 else l1

/-- The LCS alignment of two child sequences, with enough fuel for the
recursion over both lists to run to completion. -/
def lcsPairs (m : Loc → Loc → Bool) (xs ys : List Loc) : List (Loc × Loc) :=
  lcsAux m (xs.length + ys.length) xs ys

/-- The target node matched to `x`, when there is one. -/
def matchedTarget (M : List (Loc × Loc)) (x : Loc) : Option Loc :=
  (M.find? fun pr => pr.1.1 == x.1).map Prod.snd

/-- Two located nodes are correspondents of the matching `M`: some pair of
`M` carries exactly their two positions. -/
def corrRel (M : List (Loc × Loc)) (x y : Loc) : Bool :=
  M.any fun pr => pr.1.1 == x.1 && pr.2.1 == y.1

/-- Modelled from the spec: Move discovery for one matched pair (`spec.md`
section 4.4).  The child sequences of the two nodes are aligned by LCS keyed
on matched-pair identity; a source child that is matched (wherever its
counterpart lives) but falls outside the alignment is reported as a `move`
to its counterpart.  Unmatched children are not moves (they are covered by
insert/remove discovery). -/
def moveEdits (M : List (Loc × Loc)) (s t : Loc) : List Edit :=
  let L := lcsPairs (corrRel M) (kidsLoc s) (kidsLoc t)
  (kidsLoc s).filterMap fun x =>
    if L.any (fun pr => pr.1.1 == x.1) then none
    else (matchedTarget M x).map fun y => .move x y

/-- Whether every child of `x` has its path among `ps`. -/
def allKidsIn (ps : List Path) (x : Loc) : Bool :=
  (kidsLoc x).all fun k => ps.contains k.1

/-- Modelled from the spec: classification of one matched pair (`spec.md`
section 4.4).  Structurally identical pairs are kept; a pair of equal tag
whose own scalar slots changed while every child slot pairs up to a matched
node is an update, emitted at this shallowest changed node only; any other
matched pair contributes nothing beyond its move discovery (its differences
are reported at deeper changed nodes or by insert/remove of its unmatched
descendants — never again up the ancestor chain). -/
def pairOps (M : List (Loc × Loc)) (s t : Loc) : List Edit :=
  if s.2 == t.2 then .keep s t :: moveEdits M s t
  else if s.2.tag == t.2.tag && s.2.scalars != t.2.scalars &&
      allKidsIn (sourcePaths M) s && allKidsIn (targetPaths M) t then
    [.update s t]
  else moveEdits M s t

/-- Modelled from the spec: the full edit script of a diff invocation
(`spec.md` section 4.4).  Every source node left unmatched by the
correspondence is reported as a `remove` and every unmatched target node as
an `insert`, in preorder; then every matched pair contributes its
classification and move discovery. -/
def editScript (source target : Node) (pre : List (Path × Path)) : List Edit :=
  let M := correspondence source target pre
  let srcNodes := preorderNode [] source
  let tgtNodes := preorderNode [] target
  ((srcNodes.filter fun x => !(sourcePaths M).contains x.1).map .remove) ++
    ((tgtNodes.filter fun y => !(targetPaths M).contains y.1).map .insert) ++
    M.foldr (fun pr acc => pairOps M pr.1 pr.2 ++ acc) []

/-- Whether a list of paths mentions some path twice. -/
def hasDupPaths : List Path → Bool
  | [] => false
  | x :: xs => xs.contains x || hasDupPaths xs

/-- Modelled from the spec: the primary entry point (`spec.md` section 6),
`diff(source, target, matchings, dialect, delta_only)`.  The pre-matching
validator rejects a duplicated source or target node across the supplied
pairs with a `ConfigurationError` before any matching work; otherwise the
correspondence and edit script are computed and, in delta-only mode, `keep`
operations are suppressed.  The optional dialect identifier is forwarded
only to the excluded rendering/diagnostic path, so it does not enter the
computation of the result. -/
def diff (source target : Node) (matchings : List (Path × Path))
    (dialect : Option String) (deltaOnly : Bool) : Except DiffError (List Edit) :=
  if hasDupPaths (matchings.map Prod.fst) || hasDupPaths (matchings.map Prod.snd) then
    .error (.configurationError "duplicate node in matchings")
  else
    .ok ((editScript source target matchings).filter fun e => !(deltaOnly && e.isKeep))

/-- A literal leaf node, its value held in a scalar slot. -/
def lit (v : String) : Node := .mk "Literal" [("value", v)] .nil

/-- A column-reference leaf node, its name held in a scalar slot. -/
def col (name : String) : Node := .mk "Column" [("name", name)] .nil

/-- A select statement over a list slot of projections. -/
def sel (es : List Node) : Node := .mk "Select" [] (.ofList es)

/-- A binary operator node with two single-child operand slots. -/
def bin (tag : String) (l r : Node) : Node := .mk tag [] (.ofList [l, r])

/-- An anonymous user-defined function call leaf, its name a scalar slot. -/
def anon (name : String) : Node := .mk "Anonymous" [("this", name)] .nil

/-- The parse tree of `SELECT a, b, c`. -/
def selectABC : Node := sel [col "a", col "b", col "c"]

/-- The parse tree of `SELECT c, a, b`. -/
def selectCAB : Node := sel [col "c", col "a", col "b"]

/-- The parse tree of `SELECT 1`. -/
def selectOne : Node := sel [lit "1"]

/-- The parse tree of `SELECT 1, 2, 3, 4`. -/
def selectOneToFour : Node := sel [lit "1", lit "2", lit "3", lit "4"]

/-- The parse tree of `SELECT a + b`. -/
def selectAddAB : Node := sel [bin "Add" (col "a") (col "b")]

/-- The parse tree of `SELECT b + a`. -/
def selectAddBA : Node := sel [bin "Add" (col "b") (col "a")]

/-- The parse tree of `SELECT aaaa AND bbbb`. -/
def selectAndAB : Node := sel [bin "And" (col "aaaa") (col "bbbb")]

/-- The parse tree of `SELECT bbbb AND aaaa`. -/
def selectAndBA : Node := sel [bin "And" (col "bbbb") (col "aaaa")]

/-- The parse tree of `SELECT a, b, "my.udf1"()`. -/
def selectUdf1 : Node := sel [col "a", col "b", anon "my.udf1"]

/-- The parse tree of `SELECT a, b, "my.udf2"()`. -/
def selectUdf2 : Node := sel [col "a", col "b", anon "my.udf2"]

/-- A window node over a function call, partitioned by `a`, ordered by `b`. -/
def winFun (f : Node) : Node := .mk "Window" [] (.ofList [f, col "a", col "b"])

/-- The `ROW_NUMBER()` window-function call node. -/
def rowNumberCall : Node := .mk "RowNumber" [] .nil

/-- The `RANK()` window-function call node. -/
def rankCall : Node := .mk "Rank" [] .nil

/-- The parse tree of `SELECT ROW_NUMBER() OVER (PARTITION BY a ORDER BY b)`. -/
def selectWinRowNumber : Node := sel [winFun rowNumberCall]

/-- The parse tree of `SELECT RANK() OVER (PARTITION BY a ORDER BY b)`. -/
def selectWinRank : Node := sel [winFun rankCall]

/-- A set-operation node whose distinct modifier is a scalar slot. -/
def unionNode (distinct : String) (l r : Node) : Node :=
  .mk "Union" [("distinct", distinct)] (.ofList [l, r])

/-- The parse tree of `SELECT a UNION SELECT b` (distinct set operation). -/
def unionDistinct : Node := unionNode "true" (sel [col "a"]) (sel [col "b"])

/-- The parse tree of `SELECT a UNION ALL SELECT b`. -/
def unionAll : Node := unionNode "false" (sel [col "a"]) (sel [col "b"])

/-- An order-by element whose sort direction is a scalar slot. -/
def orderedNode (desc : String) (e : Node) : Node :=
  .mk "Ordered" [("desc", desc)] (.ofList [e])

/-- An order-by clause node. -/
def orderByNode (e : Node) : Node := .mk "Order" [] (.ofList [e])

/-- The parse tree of `SELECT a ... ORDER BY b ASC`. -/
def selectOrderAsc : Node := sel [col "a", orderByNode (orderedNode "false" (col "b"))]

/-- The parse tree of `SELECT a ... ORDER BY b DESC`. -/
def selectOrderDesc : Node := sel [col "a", orderByNode (orderedNode "true" (col "b"))]

/-- The delta-only edit operations of diffing the two window selections. -/
def winDelta : List Edit :=
  (editScript selectWinRowNumber selectWinRank []).filter fun e => !e.isKeep

/-- A common subsequence of the two child sequences under the alignment
relation `m`: an order-preserving selection of `m`-related pairs of
children, one component a sublist of the source children, the other of the
target children. -/
def IsCommonSub (m : Loc → Loc → Bool) (xs ys : List Loc)
    (zs : List (Loc × Loc)) : Prop :=
  (zs.map Prod.fst).Sublist xs ∧ (zs.map Prod.snd).Sublist ys ∧
    ∀ pr ∈ zs, m pr.1 pr.2 = true

/-! ### Validation of pre-matchings -/

/-- A path list is duplicate-free exactly when the duplicate scan fails. -/
theorem hasDupPaths_eq_false_iff (l : List Path) : hasDupPaths l = false ↔ l.Nodup := by
  induction l with
  | nil => simp [hasDupPaths]
  | cons x xs ih => simp [hasDupPaths, ih, List.nodup_cons]

/-- A path list has a duplicate exactly when the duplicate scan succeeds. -/
theorem hasDupPaths_eq_true_iff (l : List Path) : hasDupPaths l = true ↔ ¬ l.Nodup := by
  rw [← hasDupPaths_eq_false_iff]
  cases hasDupPaths l <;> simp

/-- C2: a call to `diff` whose matchings contain a duplicate source node or
a duplicate target node across the supplied pairs fails with the
configuration error before any matching work occurs — the error branch is
taken ahead of the correspondence computation, so zero edit operations are
computed and no partial matching is performed — while matchings in which
every source and every target node appears at most once never raise the
error: the call returns the computed edit script. -/
theorem diff_validates_pre_matchings (A B : Node) (m : List (Path × Path))
    (d : Option String) (deltaOnly : Bool) :
    (¬ (m.map Prod.fst).Nodup ∨ ¬ (m.map Prod.snd).Nodup →
      diff A B m d deltaOnly = .error (.configurationError "duplicate node in matchings")) ∧
    ((m.map Prod.fst).Nodup → (m.map Prod.snd).Nodup →
      diff A B m d deltaOnly =
        .ok ((editScript A B m).filter fun e => !(deltaOnly && e.isKeep))) := by
  constructor
  · intro h
    have hd : (hasDupPaths (m.map Prod.fst) || hasDupPaths (m.map Prod.snd)) = true := by
      rcases h with h | h <;> rw [Bool.or_eq_true] <;>
        [exact Or.inl ((hasDupPaths_eq_true_iff _).2 h);
         exact Or.inr ((hasDupPaths_eq_true_iff _).2 h)]
    simp only [diff, hd, if_true]
  · intro h1 h2
    simp only [diff, (hasDupPaths_eq_false_iff _).2 h1, (hasDupPaths_eq_false_iff _).2 h2,
      Bool.or_self, if_false, Bool.false_eq_true]

/-- Witness for the pre-matching validation theorem: duplicating the root
pre-matching pair makes `diff` fail with the configuration error, while the
single pair succeeds. -/
theorem diff_validates_pre_matchings_witness :
    diff selectOne selectOneToFour [([], []), ([], [])] none true =
      .error (.configurationError "duplicate node in matchings") ∧
    diff selectOne selectOneToFour [([], [])] none true =
      .ok ((editScript selectOne selectOneToFour [([], [])]).filter fun e =>
        !(true && e.isKeep)) :=
  ⟨(diff_validates_pre_matchings selectOne selectOneToFour [([], []), ([], [])] none true).1
      (Or.inl (by decide)),
    (diff_validates_pre_matchings selectOne selectOneToFour [([], [])] none true).2
      (by decide) (by decide)⟩

/-! ### Dialect independence -/

/-- C8: for every pair of trees, every matchings list and every delta mode,
the result of `diff` is the same under any two choices of the optional
dialect argument (including none): the dialect is forwarded only to the
excluded rendering/diagnostic path, so it never alters the matching
topology or the returned operation set, and diffing two trees of the same
dialect triggers no diagnostic at all in the operation computation. -/
theorem diff_result_independent_of_dialect (A B : Node) (m : List (Path × Path))
    (deltaOnly : Bool) (d₁ d₂ : Option String) :
    diff A B m d₁ deltaOnly = diff A B m d₂ deltaOnly := rfl

/-! ### Concrete scenario theorems -/

/-- C9: swapping the two operands of a binary operator yields exactly one
Move pairing the relocated source operand with its target position, even
though the operands occupy named single-child slots: for `SELECT a + b`
against `SELECT b + a`, and for `SELECT aaaa AND bbbb` against
`SELECT bbbb AND aaaa`, the delta is exactly one `move` of the left source
operand to the right-hand target position. -/
theorem operand_swap_single_move :
    diff selectAddAB selectAddBA [] none true =
      .ok [.move ([0, 0], col "a") ([0, 1], col "a")] ∧
    diff selectAndAB selectAndBA [] none true =
      .ok [.move ([0, 0], col "aaaa") ([0, 1], col "aaaa")] := ⟨rfl, rfl⟩

/-- C10: function-call nodes with different names are never matched to each
other.  Diffing `SELECT a, b, "my.udf1"()` against `SELECT a, b,
"my.udf2"()` yields exactly a remove of the source call and an insert of
the target call (the shared columns and the selection produce no
insert/remove of their own), and diffing the `ROW_NUMBER()` window
selection against the `RANK()` one removes the whole source call and
inserts the whole target call, with no update pairing the two calls and no
other insert/remove. -/
theorem call_name_mismatch_never_matched :
    diff selectUdf1 selectUdf2 [] none true =
      .ok [.remove ([2], anon "my.udf1"), .insert ([2], anon "my.udf2")] ∧
    Edit.remove ([0, 0], rowNumberCall) ∈ winDelta ∧
    Edit.insert ([0, 0], rankCall) ∈ winDelta ∧
    winDelta.filter (fun e => e.isRemove || e.isInsert) =
      [.remove ([0, 0], rowNumberCall), .insert ([0, 0], rankCall)] ∧
    winDelta.all (fun e =>
      match e with
      | .update s t => !(s.2 == rowNumberCall || t.2 == rankCall)
      | _ => true) = true :=
  ⟨rfl, by decide, by decide, by decide, by decide⟩

/-! ### Membership structure of the edit script -/

/-- Every occurrence-annotated entry comes from the traversed list. -/
theorem mem_withOccAux (seen : List Loc) (l : List Loc) (xk : Loc × Nat)
    (h : xk ∈ withOccAux seen l) : xk.1 ∈ l := by
  induction l generalizing seen with
  | nil => simp [withOccAux] at h
  | cons x xs ih =>
    simp only [withOccAux, List.mem_cons] at h
    rcases h with h | h
    · simp [h]
    · exact List.mem_cons_of_mem _ (ih _ h)

/-- A pair produced by the exact pass connects a source node of the free
source list with a target node of the free target list. -/
theorem mem_exactPairs (U V : List Loc) (pr : Loc × Loc) (h : pr ∈ exactPairs U V) :
    pr.1 ∈ U ∧ pr.2 ∈ V := by
  simp only [exactPairs, List.mem_filterMap] at h
  obtain ⟨sk, hsk, h⟩ := h
  cases hfind : (withOcc V).find? (fun tk => tk.1.2 == sk.1.2 && tk.2 == sk.2) with
  | none => rw [hfind] at h; cases h
  | some tk =>
    rw [hfind] at h
    injection h with h
    have h1 := mem_withOccAux _ _ _ hsk
    have h2 := mem_withOccAux _ _ _ (List.mem_of_find?_eq_some hfind)
    rw [← h]
    exact ⟨h1, h2⟩

/-- A pair produced by the greedy top-down pass connects a row with a
column. -/
theorem mem_greedy (E : Loc → Loc → Bool) (rows cols : List Loc) (pr : Loc × Loc)
    (h : pr ∈ greedy E rows cols) : pr.1 ∈ rows ∧ pr.2 ∈ cols := by
  induction rows generalizing cols with
  | nil => simp [greedy] at h
  | cons r rs ih =>
    simp only [greedy] at h
    cases hfind : cols.find? (E r) with
    | none =>
      rw [hfind] at h
      exact ⟨List.mem_cons_of_mem _ (ih _ h).1, (ih _ h).2⟩
    | some c =>
      rw [hfind] at h
      rcases List.mem_cons.1 h with h | h
      · rw [h]
        exact ⟨List.mem_cons_self _ _, List.mem_of_find?_eq_some hfind⟩
      · exact ⟨List.mem_cons_of_mem _ (ih _ h).1,
          List.mem_of_mem_erase (ih _ h).2⟩

/-- Move discovery emits only `move` operations. -/
theorem mem_moveEdits (M : List (Loc × Loc)) (s t : Loc) (e : Edit)
    (h : e ∈ moveEdits M s t) : ∃ x y, e = .move x y := by
  simp only [moveEdits, List.mem_filterMap] at h
  obtain ⟨x, _, h⟩ := h
  by_cases hc : (lcsPairs (corrRel M) (kidsLoc s) (kidsLoc t)).any
      (fun pr => pr.1.1 == x.1) = true
  · rw [if_pos hc] at h; cases h
  · rw [if_neg hc] at h
    cases hmt : matchedTarget M x with
    | none => rw [hmt] at h; cases h
    | some y =>
      rw [hmt] at h
      injection h with h
      exact ⟨x, y, h.symm⟩

/-- Classification of a matched pair never emits an insert or a remove. -/
theorem mem_pairOps_shape (M : List (Loc × Loc)) (s t : Loc) (e : Edit)
    (h : e ∈ pairOps M s t) : e.isRemove = false ∧ e.isInsert = false := by
  simp only [pairOps] at h
  split at h
  · rcases List.mem_cons.1 h with h | h
    · rw [h]; exact ⟨rfl, rfl⟩
    · obtain ⟨x, y, h⟩ := mem_moveEdits _ _ _ _ h
      rw [h]; exact ⟨rfl, rfl⟩
  · split at h
    · rcases List.mem_cons.1 h with h | h
      · rw [h]; exact ⟨rfl, rfl⟩
      · cases h
    · obtain ⟨x, y, h⟩ := mem_moveEdits _ _ _ _ h
      rw [h]; exact ⟨rfl, rfl⟩

/-- Membership in the per-pair portion of the edit script. -/
theorem mem_foldr_pairOps (M N : List (Loc × Loc)) (e : Edit) :
    e ∈ N.foldr (fun pr acc => pairOps M pr.1 pr.2 ++ acc) [] ↔
      ∃ pr ∈ N, e ∈ pairOps M pr.1 pr.2 := by
  induction N with
  | nil => simp
  | cons p ps ih =>
    simp only [List.foldr_cons, List.mem_append, ih, List.mem_cons]
    constructor
    · rintro (h | ⟨pr, hpr, hm⟩)
      · exact ⟨p, Or.inl rfl, h⟩
      · exact ⟨pr, Or.inr hpr, hm⟩
    · rintro ⟨pr, hpr | hpr, hm⟩
      · rw [hpr] at hm; exact Or.inl hm
      · exact Or.inr ⟨pr, hpr, hm⟩

/-- A remove is in the edit script exactly for a source node that the
correspondence leaves unmatched. -/
theorem remove_mem_editScript_iff (A B : Node) (pre : List (Path × Path)) (x : Loc) :
    Edit.remove x ∈ editScript A B pre ↔
      x ∈ preorderNode [] A ∧
        (sourcePaths (correspondence A B pre)).contains x.1 = false := by
  simp only [editScript, List.mem_append]
  constructor
  · rintro ((h | h) | h)
    · obtain ⟨a, ha, heq⟩ := List.mem_map.1 h
      injection heq with heq
      obtain ⟨ha1, ha2⟩ := List.mem_filter.1 ha
      rw [← heq]
      refine ⟨ha1, ?_⟩
      rwa [Bool.not_eq_eq_eq_not, Bool.not_true] at ha2
    · obtain ⟨a, _, heq⟩ := List.mem_map.1 h
      cases heq
    · obtain ⟨pr, _, hm⟩ := (mem_foldr_pairOps _ _ _).1 h
      have := (mem_pairOps_shape _ _ _ _ hm).1
      simp [Edit.isRemove] at this
  · rintro ⟨h1, h2⟩
    refine Or.inl (Or.inl (List.mem_map.2 ⟨x, List.mem_filter.2 ⟨h1, ?_⟩, rfl⟩))
    rw [h2]
    rfl

/-- An insert is in the edit script exactly for a target node that the
correspondence leaves unmatched. -/
theorem insert_mem_editScript_iff (A B : Node) (pre : List (Path × Path)) (y : Loc) :
    Edit.insert y ∈ editScript A B pre ↔
      y ∈ preorderNode [] B ∧
        (targetPaths (correspondence A B pre)).contains y.1 = false := by
  simp only [editScript, List.mem_append]
  constructor
  · rintro ((h | h) | h)
    · obtain ⟨a, _, heq⟩ := List.mem_map.1 h
      cases heq
    · obtain ⟨a, ha, heq⟩ := List.mem_map.1 h
      injection heq with heq
      obtain ⟨ha1, ha2⟩ := List.mem_filter.1 ha
      rw [← heq]
      refine ⟨ha1, ?_⟩
      rwa [Bool.not_eq_eq_eq_not, Bool.not_true] at ha2
    · obtain ⟨pr, _, hm⟩ := (mem_foldr_pairOps _ _ _).1 h
      have := (mem_pairOps_shape _ _ _ _ hm).2
      simp [Edit.isInsert] at this
  · rintro ⟨h1, h2⟩
    refine Or.inl (Or.inr (List.mem_map.2 ⟨y, List.mem_filter.2 ⟨h1, ?_⟩, rfl⟩))
    rw [h2]
    rfl

/-- A matched pair of equal tag with changed scalar slots and fully matched
child slots contributes an update at that node to the edit script. -/
theorem update_mem_editScript (A B : Node) (pre : List (Path × Path)) (s t : Loc)
    (hM : (s, t) ∈ correspondence A B pre) (hne : s.2 ≠ t.2)
    (hcond : (s.2.tag == t.2.tag && s.2.scalars != t.2.scalars &&
      allKidsIn (sourcePaths (correspondence A B pre)) s &&
      allKidsIn (targetPaths (correspondence A B pre)) t) = true) :
    Edit.update s t ∈ editScript A B pre := by
  simp only [editScript, List.mem_append]
  refine Or.inr ((mem_foldr_pairOps _ _ _).2 ⟨(s, t), hM, ?_⟩)
  simp only [pairOps]
  rw [if_neg, if_pos hcond]
  · exact List.mem_cons_self _ _
  · simp only [beq_iff_eq]
    exact hne

/-- A matched node is never reported as removed or inserted. -/
theorem matched_not_reported (A B : Node) (pre : List (Path × Path)) (s t : Loc)
    (hM : (s, t) ∈ correspondence A B pre) :
    Edit.remove s ∉ editScript A B pre ∧ Edit.insert t ∉ editScript A B pre := by
  constructor
  · intro hc
    have h2 := ((remove_mem_editScript_iff A B pre s).1 hc).2
    have hmem : s.1 ∈ sourcePaths (correspondence A B pre) :=
      List.mem_map.2 ⟨(s, t), hM, rfl⟩
    rw [List.contains_eq_any_beq] at h2
    have : (sourcePaths (correspondence A B pre)).any (s.1 == ·) = true := by
      refine List.any_eq_true.2 ⟨s.1, hmem, ?_⟩
      exact beq_self_eq_true s.1
    rw [this] at h2
    cases h2
  · intro hc
    have h2 := ((insert_mem_editScript_iff A B pre t).1 hc).2
    have hmem : t.1 ∈ targetPaths (correspondence A B pre) :=
      List.mem_map.2 ⟨(s, t), hM, rfl⟩
    rw [List.contains_eq_any_beq] at h2
    have : (targetPaths (correspondence A B pre)).any (t.1 == ·) = true := by
      refine List.any_eq_true.2 ⟨t.1, hmem, ?_⟩
      exact beq_self_eq_true t.1
    rw [this] at h2
    cases h2

/-- C1 counterexample: diffing `SELECT 1` against `SELECT 1, 2, 3, 4` with
no pre-matchings leaves both statement roots unmatched, and the delta
contains an insert of the unmatched target root together with inserts for
the descendant literals 2, 3 and 4 of that very root (the root's path is a
proper prefix of the literal's path): an insert is emitted for a node one
of whose ancestors is itself unmatched and already reported, refuting the
claim that this never happens. -/
theorem insert_emitted_under_reported_ancestor :
    diff selectOne selectOneToFour [] none true =
      .ok [.remove ([], selectOne), .insert ([], selectOneToFour),
        .insert ([1], lit "2"), .insert ([2], lit "3"), .insert ([3], lit "4")] ∧
    List.IsPrefix ([] : Path) [1] ∧ ([] : Path) ≠ [1] :=
  ⟨rfl, ⟨[1], rfl⟩, by decide⟩

/-- C5 counterexample: for `A = SELECT a + b` and `B = SELECT b + a`,
`diff A B` is exactly one move of the operand `a`, but `diff B A` is
exactly one move of the operand `b` — not the transposed move of `a` the
claim requires — because the LCS alignment's tie-break between the two
single-element alignments is taken on the source side in both directions. -/
theorem reversed_diff_not_kind_swapped :
    diff selectAddAB selectAddBA [] none true =
      .ok [.move ([0, 0], col "a") ([0, 1], col "a")] ∧
    diff selectAddBA selectAddAB [] none true =
      .ok [.move ([0, 0], col "b") ([0, 1], col "b")] ∧
    ([Edit.move ([0, 0], col "b") ([0, 1], col "b")] : List Edit) ≠
      [Edit.move ([0, 1], col "a") ([0, 0], col "a")] :=
  ⟨rfl, rfl, by decide⟩

/-- C7 counterexample: two single-node trees that differ only in the scalar
slot value of one node (two literals with different values, equal tags and
equal child slots) do not produce one update at that node: the two leaves
stay unmatched and the delta is a remove plus an insert, with no update at
all, refuting the universally quantified claim. -/
theorem scalar_only_leaf_change_not_update :
    diff (lit "1") (lit "2") [] none true =
      .ok [.remove ([], lit "1"), .insert ([], lit "2")] ∧
    (lit "1").tag = (lit "2").tag ∧ (lit "1").kids = (lit "2").kids ∧
    (lit "1").scalars ≠ (lit "2").scalars ∧
    ([Edit.remove (([] : Path), lit "1"), Edit.insert ([], lit "2")].all fun e =>
      !e.isUpdate) = true :=
  ⟨rfl, rfl, rfl, by decide, by decide⟩

/-- C1 amended: for every diff invocation that returns a result, a remove is
emitted exactly for each source node the correspondence leaves unmatched and
an insert exactly for each unmatched target node — including nodes whose
ancestors are themselves unmatched and reported — so removing an entire
subexpression reports a remove for every unmatched node of it (matched
descendants are not reported), not only for its highest unmatched
ancestor. -/
theorem diff_reports_every_unmatched_node (A B : Node) (m : List (Path × Path))
    (d : Option String) (ops : List Edit) (h : diff A B m d true = .ok ops) :
    (∀ x, Edit.remove x ∈ ops ↔ x ∈ preorderNode [] A ∧
      (sourcePaths (correspondence A B m)).contains x.1 = false) ∧
    (∀ y, Edit.insert y ∈ ops ↔ y ∈ preorderNode [] B ∧
      (targetPaths (correspondence A B m)).contains y.1 = false) := by
  have hops : ops = (editScript A B m).filter fun e => !(true && e.isKeep) := by
    simp only [diff] at h
    split at h
    · cases h
    · injection h with h
      exact h.symm
  constructor
  · intro x
    rw [hops, List.mem_filter]
    simp only [Edit.isKeep, Bool.true_and, Bool.not_false, and_true]
    exact remove_mem_editScript_iff A B m x
  · intro y
    rw [hops, List.mem_filter]
    simp only [Edit.isKeep, Bool.true_and, Bool.not_false, and_true]
    exact insert_mem_editScript_iff A B m y

/-- Witness for the reporting theorem, at the diff of `SELECT 1` against
`SELECT 1, 2, 3, 4`: the insert of the literal 2 — a node sitting below the
unmatched, reported target root — is in the delta exactly because it is a
target node the correspondence leaves unmatched. -/
theorem diff_reports_every_unmatched_node_witness :
    Edit.insert ([1], lit "2") ∈
        [Edit.remove ([], selectOne), Edit.insert ([], selectOneToFour),
          Edit.insert ([1], lit "2"), Edit.insert ([2], lit "3"),
          Edit.insert ([3], lit "4")] ↔
      ([1], lit "2") ∈ preorderNode [] selectOneToFour ∧
        (targetPaths (correspondence selectOne selectOneToFour [])).contains [1] = false :=
  (diff_reports_every_unmatched_node selectOne selectOneToFour [] none
    [Edit.remove ([], selectOne), Edit.insert ([], selectOneToFour),
      Edit.insert ([1], lit "2"), Edit.insert ([2], lit "3"),
      Edit.insert ([3], lit "4")] rfl).2 ([1], lit "2")

/-- C6: valid pre-matching pairs are fixed points of the correspondence:
every resolved pre-matched pair is in the final correspondence, and every
correspondence pair beyond the pre-matchings touches no pre-matched source
or target node (later matching steps never override or duplicate a pinned
node).  Concretely, diffing `SELECT 1` against `SELECT 1, 2, 3, 4` with the
two statement roots pre-matched yields, under delta-only, exactly the three
inserts of the literals 2, 3 and 4, with no remove or insert for the pinned
roots. -/
theorem pre_matchings_are_fixed_points (A B : Node) (pre : List (Path × Path)) :
    (∀ pr ∈ resolvePre (preorderNode [] A) (preorderNode [] B) pre,
      pr ∈ correspondence A B pre) ∧
    (∀ q ∈ correspondence A B pre,
      q ∉ resolvePre (preorderNode [] A) (preorderNode [] B) pre →
      (pre.map Prod.fst).contains q.1.1 = false ∧
        (pre.map Prod.snd).contains q.2.1 = false) ∧
    diff selectOne selectOneToFour [([], [])] none true =
      .ok [.insert ([1], lit "2"), .insert ([2], lit "3"), .insert ([3], lit "4")] := by
  refine ⟨?_, ?_, rfl⟩
  · intro pr hpr
    simp only [correspondence, List.mem_append]
    exact Or.inl (Or.inl hpr)
  · intro q hq hnotpre
    simp only [correspondence, List.mem_append] at hq
    rcases hq with (hq | hq) | hq
    · exact absurd hq hnotpre
    · obtain ⟨h1, h2⟩ := mem_exactPairs _ _ _ hq
      obtain ⟨_, hb1⟩ := List.mem_filter.1 h1
      obtain ⟨_, hb2⟩ := List.mem_filter.1 h2
      rw [Bool.not_eq_eq_eq_not, Bool.not_true] at hb1 hb2
      exact ⟨hb1, hb2⟩
    · obtain ⟨h1, h2⟩ := mem_greedy _ _ _ _ hq
      obtain ⟨h1, _⟩ := List.mem_filter.1 h1
      obtain ⟨h2, _⟩ := List.mem_filter.1 h2
      obtain ⟨_, hb1⟩ := List.mem_filter.1 h1
      obtain ⟨_, hb2⟩ := List.mem_filter.1 h2
      rw [Bool.not_eq_eq_eq_not, Bool.not_true] at hb1 hb2
      exact ⟨hb1, hb2⟩

/-- Witness for the fixed-point theorem: pre-matching the two statement
roots of `SELECT 1` and `SELECT 1, 2, 3, 4` puts the resolved root pair
into the final correspondence. -/
theorem pre_matchings_are_fixed_points_witness :
    ((([] : Path), selectOne), (([] : Path), selectOneToFour)) ∈
      correspondence selectOne selectOneToFour [([], [])] :=
  (pre_matchings_are_fixed_points selectOne selectOneToFour [([], [])]).1
    ((([] : Path), selectOne), (([] : Path), selectOneToFour)) (by decide)

/-- C7 amended: a scalar-only change on a node that the correspondence
matches yields one update at that node — a matched pair of equal tag whose
scalar slots differ and whose child slots all pair up to matched nodes is
reported as an update, and a matched node is never also removed or
inserted.  Concretely the distinct-modifier change (`UNION` vs `UNION ALL`)
and the sort-direction change (`ASC` vs `DESC`) each produce exactly one
update at the changed node and nothing else.  (When the changed node is
itself unmatched — e.g. a bare leaf pair — it is reported as remove plus
insert instead, which is what forces the amendment.) -/
theorem scalar_change_on_matched_node_is_update (A B : Node)
    (pre : List (Path × Path)) (s t : Loc)
    (hM : (s, t) ∈ correspondence A B pre) (hne : s.2 ≠ t.2)
    (hcond : (s.2.tag == t.2.tag && s.2.scalars != t.2.scalars &&
      allKidsIn (sourcePaths (correspondence A B pre)) s &&
      allKidsIn (targetPaths (correspondence A B pre)) t) = true) :
    Edit.update s t ∈ editScript A B pre ∧
    Edit.remove s ∉ editScript A B pre ∧
    Edit.insert t ∉ editScript A B pre ∧
    diff unionDistinct unionAll [] none true =
      .ok [.update ([], unionDistinct) ([], unionAll)] ∧
    diff selectOrderAsc selectOrderDesc [] none true =
      .ok [.update ([1, 0], orderedNode "false" (col "b"))
        ([1, 0], orderedNode "true" (col "b"))] :=
  ⟨update_mem_editScript A B pre s t hM hne hcond,
    (matched_not_reported A B pre s t hM).1,
    (matched_not_reported A B pre s t hM).2, rfl, rfl⟩

/-- Witness for the amended scalar-change theorem, at the set-operation
modifier scenario: the matched pair of union roots differing only in the
distinct scalar is reported as an update and neither removed nor
inserted. -/
theorem scalar_change_on_matched_node_is_update_witness :
    Edit.update ([], unionDistinct) ([], unionAll) ∈
        editScript unionDistinct unionAll [] ∧
      Edit.remove (([] : Path), unionDistinct) ∉ editScript unionDistinct unionAll [] :=
  ⟨(scalar_change_on_matched_node_is_update unionDistinct unionAll []
      ([], unionDistinct) ([], unionAll) (by decide) (by decide) (by decide)).1,
    (scalar_change_on_matched_node_is_update unionDistinct unionAll []
      ([], unionDistinct) ([], unionAll) (by decide) (by decide) (by decide)).2.1⟩

/-! ### The LCS aligner: soundness, maximality, and the move count -/



theorem lcsAux_common (m : Loc → Loc → Bool) :
    ∀ (fuel : Nat) (xs ys : List Loc),
      IsCommonSub m xs ys (lcsAux m fuel xs ys) := by
  intro fuel
  induction fuel with
  | zero =>
    intro xs ys
    exact ⟨List.nil_sublist _, List.nil_sublist _, by intro pr h; cases h⟩
  | succ fuel ih =>
    intro xs ys
    match xs, ys with
    | [], ys =>
      exact ⟨List.nil_sublist _, List.nil_sublist _, by intro pr h; cases h⟩
    | x :: xs, [] =>
      exact ⟨List.nil_sublist _, List.nil_sublist _, by intro pr h; cases h⟩
    | x :: xs, y :: ys =>
      simp only [lcsAux]
      by_cases hm : m x y = true
      · rw [if_pos hm]
        obtain ⟨h1, h2, h3⟩ := ih xs ys
        refine ⟨List.cons_sublist_cons.2 h1, List.cons_sublist_cons.2 h2, ?_⟩
        intro pr hpr
        rcases List.mem_cons.1 hpr with h | h
        · rw [h]; exact hm
        · exact h3 pr h
      · rw [if_neg hm]
        obtain ⟨a1, a2, a3⟩ := ih xs (y :: ys)
        obtain ⟨b1, b2, b3⟩ := ih (x :: xs) ys
        by_cases hlen : (lcsAux m fuel xs (y :: ys)).length <
            (lcsAux m fuel (x :: xs) ys).length
        · rw [if_pos hlen]
          exact ⟨b1, b2.trans (List.sublist_cons_self _ _), b3⟩
        · rw [if_neg hlen]
          exact ⟨a1.trans (List.sublist_cons_self _ _), a2, a3⟩

theorem lcsPairs_common (m : Loc → Loc → Bool) (xs ys : List Loc) :
    IsCommonSub m xs ys (lcsPairs m xs ys) :=
  lcsAux_common m _ xs ys

theorem lcsAux_maximal (m : Loc → Loc → Bool)
    (hL : ∀ x y y', m x y = true → m x y' = true → y.1 = y'.1)
    (hR : ∀ x x' y, m x y = true → m x' y = true → x.1 = x'.1) :
    ∀ (fuel : Nat) (xs ys : List Loc), xs.length + ys.length ≤ fuel →
      (xs.map Prod.fst).Nodup → (ys.map Prod.fst).Nodup →
      ∀ zs, IsCommonSub m xs ys zs → zs.length ≤ (lcsAux m fuel xs ys).length := by
  intro fuel
  induction fuel with
  | zero =>
    intro xs ys hfuel _ _ zs hzs
    have hx : xs = [] := List.length_eq_zero.1 (by omega)
    obtain ⟨h1, _, _⟩ := hzs
    rw [hx] at h1
    have h0 := List.sublist_nil.1 h1
    have hz : zs = [] := by
      cases zs with
      | nil => rfl
      | cons a l => simp at h0
    rw [hz]
    exact Nat.zero_le _
  | succ fuel ih =>
    intro xs ys hfuel hndx hndy zs hzs
    match xs, ys with
    | [], ys =>
      obtain ⟨h1, _, _⟩ := hzs
      have h0 := List.sublist_nil.1 h1
      have hz : zs = [] := by
        cases zs with
        | nil => rfl
        | cons a l => simp at h0
      rw [hz]
      exact Nat.zero_le _
    | x :: xs, [] =>
      obtain ⟨_, h2, _⟩ := hzs
      have h0 := List.sublist_nil.1 h2
      have hz : zs = [] := by
        cases zs with
        | nil => rfl
        | cons a l => simp at h0
      rw [hz]
      exact Nat.zero_le _
    | x :: xs, y :: ys =>
      obtain ⟨h1, h2, h3⟩ := hzs
      simp only [lcsAux]
      have hndx' : x.1 ∉ xs.map Prod.fst ∧ (xs.map Prod.fst).Nodup := by
        simpa [List.nodup_cons] using hndx
      have hndy' : y.1 ∉ ys.map Prod.fst ∧ (ys.map Prod.fst).Nodup := by
        simpa [List.nodup_cons] using hndy
      simp only [List.length_cons] at hfuel
      by_cases hm : m x y = true
      · rw [if_pos hm]
        cases zs with
        | nil => simp
        | cons ab zs =>
          have hmab : m ab.1 ab.2 = true := h3 ab (List.mem_cons_self _ _)
          simp only [List.map_cons] at h1 h2
          rcases List.sublist_cons_iff.1 h1 with hfst | ⟨r, hr, hrs⟩
          · have hfree : ∀ pr ∈ ab :: zs, pr.2 ≠ y := by
              intro pr hpr hcon
              have hm1 : m pr.1 y = true := by rw [← hcon]; exact h3 pr hpr
              have hpx : pr.1.1 = x.1 := hR pr.1 x y hm1 hm
              have hmem : pr.1 ∈ xs := hfst.subset (List.mem_map.2 ⟨pr, hpr, rfl⟩)
              exact hndx'.1 (List.mem_map.2 ⟨pr.1, hmem, hpx⟩)
            have hsnd : ((ab :: zs).map Prod.snd).Sublist ys := by
              rcases List.sublist_cons_iff.1 h2 with hs | ⟨r', hr', _⟩
              · exact hs
              · exfalso
                have hhd : ab.2 = y := by
                  have := congrArg (fun l => l.head?) hr'
                  simpa using this
                exact hfree ab (List.mem_cons_self _ _) hhd
            have hrec := ih xs ys (by omega) hndx'.2 hndy'.2 (ab :: zs)
              ⟨hfst, hsnd, h3⟩
            simp only [List.length_cons] at hrec ⊢
            omega
          · have hab1 : ab.1 = x := by
              have := congrArg (fun l => l.head?) hr
              simpa using this
            have hzs1 : (zs.map Prod.fst).Sublist xs := by
              have htl := congrArg (fun l => l.tail) hr
              simp at htl
              rw [htl]
              exact hrs
            have hby : ab.2.1 = y.1 := hL x ab.2 y (by rwa [hab1] at hmab) hm
            have hab2 : ab.2 = y := by
              rcases List.sublist_cons_iff.1 h2 with hs | ⟨r', hr', _⟩
              · have hmem : ab.2 ∈ ys := hs.subset (List.mem_cons_self _ _)
                exact absurd (List.mem_map.2 ⟨ab.2, hmem, hby⟩) hndy'.1
              · have := congrArg (fun l => l.head?) hr'
                simpa using this
            have hzs2 : (zs.map Prod.snd).Sublist ys := by
              have h2' : (ab.2 :: zs.map Prod.snd).Sublist (y :: ys) := h2
              rw [hab2] at h2'
              exact List.cons_sublist_cons.1 h2'
            have hrec := ih xs ys (by omega) hndx'.2 hndy'.2 zs
              ⟨hzs1, hzs2, fun pr hpr => h3 pr (List.mem_cons_of_mem _ hpr)⟩
            simp only [List.length_cons] at hrec ⊢
            omega
      · rw [if_neg hm]
        cases zs with
        | nil =>
          simp only [List.length_nil]
          exact Nat.zero_le _
        | cons ab zs =>
          have hle12 : ∀ n : Nat,
              n ≤ (lcsAux m fuel xs (y :: ys)).length ∨
                n ≤ (lcsAux m fuel (x :: xs) ys).length →
              n ≤ (if (lcsAux m fuel xs (y :: ys)).length <
                    (lcsAux m fuel (x :: xs) ys).length
                  then lcsAux m fuel (x :: xs) ys
                  else lcsAux m fuel xs (y :: ys)).length := by
            intro n hn
            split <;> omega
          simp only [List.map_cons] at h1 h2
          rcases List.sublist_cons_iff.1 h1 with hfst | ⟨r, hr, hrs⟩
          · refine hle12 _ (Or.inl ?_)
            exact ih xs (y :: ys) (by simp only [List.length_cons]; omega) hndx'.2 hndy (ab :: zs) ⟨hfst, h2, h3⟩
          · have hab1 : ab.1 = x := by
              have := congrArg (fun l => l.head?) hr
              simpa using this
            rcases List.sublist_cons_iff.1 h2 with hsnd | ⟨r', hr', _⟩
            · refine hle12 _ (Or.inr ?_)
              exact ih (x :: xs) ys (by simp only [List.length_cons]; omega) hndx hndy'.2 (ab :: zs) ⟨h1, hsnd, h3⟩
            · have hab2 : ab.2 = y := by
                have := congrArg (fun l => l.head?) hr'
                simpa using this
              exfalso
              have hc := h3 ab (List.mem_cons_self _ _)
              rw [hab1, hab2] at hc
              exact hm hc

theorem lcsPairs_maximal (m : Loc → Loc → Bool) (xs ys : List Loc)
    (hL : ∀ x y y', m x y = true → m x y' = true → y.1 = y'.1)
    (hR : ∀ x x' y, m x y = true → m x' y = true → x.1 = x'.1)
    (hndx : (xs.map Prod.fst).Nodup) (hndy : (ys.map Prod.fst).Nodup)
    (zs : List (Loc × Loc)) (hzs : IsCommonSub m xs ys zs) :
    zs.length ≤ (lcsPairs m xs ys).length :=
  lcsAux_maximal m hL hR _ xs ys (Nat.le_refl _) hndx hndy zs hzs


theorem length_filterMap_eq_countP {α β : Type} (f : α → Option β) (l : List α) :
    (l.filterMap f).length = l.countP (fun a => (f a).isSome) := by
  induction l with
  | nil => rfl
  | cons x xs ih =>
    rw [List.filterMap_cons, List.countP_cons]
    cases hfx : f x <;> simp [hfx, ih]

theorem kidsLoc_paths_nodup (s : Loc) : ((kidsLoc s).map Prod.fst).Nodup := by
  rw [kidsLoc, List.map_map]
  have hco : (Prod.fst ∘ fun ik : Nat × Node => (s.1 ++ [ik.1], ik.2)) =
      ((fun i => s.1 ++ [i]) ∘ Prod.fst) := rfl
  rw [hco, ← List.map_map, List.enum_map_fst]
  refine List.Nodup.map ?_ (List.nodup_range _)
  intro a b hab
  have h1 := List.append_cancel_left hab
  injection h1

theorem any_map_fst (L : List (Loc × Loc)) (p : Loc → Bool) :
    (L.map Prod.fst).any p = L.any (fun pr => p pr.1) := by
  induction L with
  | nil => rfl
  | cons q L ih => simp [ih]

theorem countP_sub_paths (P Q : List Loc) (hsub : Q.Sublist P)
    (hnd : (P.map Prod.fst).Nodup) :
    P.countP (fun x => Q.any (fun q => q.1 == x.1)) = Q.length := by
  induction hsub with
  | slnil => simp
  | @cons l₁ l₂ a hsub ih =>
    simp only [List.map_cons, List.nodup_cons] at hnd
    rw [List.countP_cons, ih hnd.2]
    have hfalse : (l₁.any fun q => q.1 == a.1) = false := by
      rw [Bool.eq_false_iff]
      intro hany
      obtain ⟨q, hq, hqa⟩ := List.any_eq_true.1 hany
      have hqmem : q ∈ l₂ := hsub.subset hq
      exact hnd.1 (List.mem_map.2 ⟨q, hqmem, eq_of_beq hqa⟩)
    rw [hfalse]
    simp
  | @cons₂ l₁ l₂ a hsub ih =>
    simp only [List.map_cons, List.nodup_cons] at hnd
    rw [List.countP_cons]
    have htrue : ((a :: l₁).any fun q => q.1 == a.1) = true :=
      List.any_eq_true.2 ⟨a, List.mem_cons_self _ _, beq_self_eq_true _⟩
    rw [htrue]
    have hcongr : l₂.countP (fun x => (a :: l₁).any fun q => q.1 == x.1) =
        l₂.countP (fun x => l₁.any fun q => q.1 == x.1) := by
      refine List.countP_congr ?_
      intro x hx
      have hax : (a.1 == x.1) = false := by
        rw [beq_eq_false_iff_ne]
        intro hcon
        exact hnd.1 (List.mem_map.2 ⟨x, hx, hcon.symm⟩)
      simp [List.any_cons, hax]
    rw [hcongr, ih hnd.2, List.length_cons]
    simp

theorem filterMap_if_length {α β : Type} (c : α → Bool) (g : α → Option β)
    (P : List α) (hg : ∀ x ∈ P, (g x).isSome = true) :
    (P.filterMap (fun x => if c x then none else g x)).length =
      P.countP (fun x => !c x) := by
  induction P with
  | nil => rfl
  | cons x xs ih =>
    rw [List.filterMap_cons, List.countP_cons]
    have hx := hg x (List.mem_cons_self _ _)
    have ihx := ih (fun a ha => hg a (List.mem_cons_of_mem _ ha))
    by_cases hc : c x = true
    · simp [hc, ihx]
    · rw [Bool.not_eq_true] at hc
      cases hgx : g x with
      | none => rw [hgx] at hx; cases hx
      | some b => simp [hc, hgx, ihx]

theorem moveEdits_length (M : List (Loc × Loc)) (s t : Loc)
    (hall : ∀ k ∈ kidsLoc s, ∃ pr ∈ M, pr.1.1 = k.1) :
    (moveEdits M s t).length +
      (lcsPairs (corrRel M) (kidsLoc s) (kidsLoc t)).length = (kidsLoc s).length := by
  have hL := lcsPairs_common (corrRel M) (kidsLoc s) (kidsLoc t)
  simp only [moveEdits]
  rw [filterMap_if_length _ _ _ ?hg]
  case hg =>
    intro x hx
    obtain ⟨pr, hpr, hpath⟩ := hall x hx
    cases hfo : M.find? (fun q => q.1.1 == x.1) with
    | none =>
      exfalso
      have hiso : ((M.find? fun q => q.1.1 == x.1)).isSome = true := by
        rw [List.find?_isSome]
        exact ⟨pr, hpr, by rw [hpath]; exact beq_self_eq_true _⟩
      rw [hfo] at hiso
      cases hiso
    | some v =>
      simp [matchedTarget, hfo]
  have hcount : (kidsLoc s).countP
        (fun x => (lcsPairs (corrRel M) (kidsLoc s) (kidsLoc t)).any
          fun pr => pr.1.1 == x.1) =
      (lcsPairs (corrRel M) (kidsLoc s) (kidsLoc t)).length := by
    have hc := countP_sub_paths (kidsLoc s)
      ((lcsPairs (corrRel M) (kidsLoc s) (kidsLoc t)).map Prod.fst) hL.1
      (kidsLoc_paths_nodup s)
    rw [List.length_map] at hc
    rw [← hc]
    refine List.countP_congr ?_
    intro x _
    rw [any_map_fst]
  have hsplit := List.length_eq_countP_add_countP
    (fun x => (lcsPairs (corrRel M) (kidsLoc s) (kidsLoc t)).any
      fun pr => pr.1.1 == x.1) (kidsLoc s)
  have hnotc : (kidsLoc s).countP
        (fun x => decide ¬((lcsPairs (corrRel M) (kidsLoc s) (kidsLoc t)).any
          fun pr => pr.1.1 == x.1) = true) =
      (kidsLoc s).countP
        (fun x => !((lcsPairs (corrRel M) (kidsLoc s) (kidsLoc t)).any
          fun pr => pr.1.1 == x.1)) := by
    refine List.countP_congr ?_
    intro x _
    cases hb : (lcsPairs (corrRel M) (kidsLoc s) (kidsLoc t)).any
      fun pr => pr.1.1 == x.1 <;> simp [hb]
  omega



/-- C3: for every matched parent pair all of whose source children are
matched — in particular a list slot holding a permutation of matched
children — the aligner emits exactly n − k move operations, where n is the
number of children and k is the length of the longest common subsequence of
the matched-pair alignment: the computed alignment is a common subsequence,
no common subsequence is longer (the correspondence being injective on
paths), and the move count is n minus the alignment's length.  Concretely,
diffing `SELECT a, b, c` against `SELECT c, a, b` yields exactly one move
(the column `c`) and no other delta operation. -/
theorem move_count_equals_length_minus_lcs (M : List (Loc × Loc)) (s t : Loc)
    (hall : ∀ k ∈ kidsLoc s, ∃ pr ∈ M, pr.1.1 = k.1)
    (hsf : ∀ p ∈ M, ∀ q ∈ M, p.1.1 = q.1.1 → p.2.1 = q.2.1)
    (htf : ∀ p ∈ M, ∀ q ∈ M, p.2.1 = q.2.1 → p.1.1 = q.1.1) :
    (moveEdits M s t).length =
      (kidsLoc s).length - (lcsPairs (corrRel M) (kidsLoc s) (kidsLoc t)).length ∧
    IsCommonSub (corrRel M) (kidsLoc s) (kidsLoc t)
      (lcsPairs (corrRel M) (kidsLoc s) (kidsLoc t)) ∧
    (∀ zs, IsCommonSub (corrRel M) (kidsLoc s) (kidsLoc t) zs →
      zs.length ≤ (lcsPairs (corrRel M) (kidsLoc s) (kidsLoc t)).length) ∧
    diff selectABC selectCAB [] none true =
      .ok [.move ([2], col "c") ([0], col "c")] := by
  have hme := moveEdits_length M s t hall
  refine ⟨by omega, lcsPairs_common _ _ _, ?_, rfl⟩
  intro zs hzs
  refine lcsPairs_maximal _ _ _ ?_ ?_ (kidsLoc_paths_nodup s)
    (kidsLoc_paths_nodup t) zs hzs
  · intro x y y' h1 h2
    simp only [corrRel] at h1 h2
    obtain ⟨p, hp, hpb⟩ := List.any_eq_true.1 h1
    obtain ⟨q, hq, hqb⟩ := List.any_eq_true.1 h2
    rw [Bool.and_eq_true] at hpb hqb
    have e1 : p.1.1 = x.1 := eq_of_beq hpb.1
    have e2 : p.2.1 = y.1 := eq_of_beq hpb.2
    have e3 : q.1.1 = x.1 := eq_of_beq hqb.1
    have e4 : q.2.1 = y'.1 := eq_of_beq hqb.2
    have := hsf p hp q hq (e1.trans e3.symm)
    rw [e2, e4] at this
    exact this
  · intro x x' y h1 h2
    simp only [corrRel] at h1 h2
    obtain ⟨p, hp, hpb⟩ := List.any_eq_true.1 h1
    obtain ⟨q, hq, hqb⟩ := List.any_eq_true.1 h2
    rw [Bool.and_eq_true] at hpb hqb
    have e1 : p.1.1 = x.1 := eq_of_beq hpb.1
    have e2 : p.2.1 = y.1 := eq_of_beq hpb.2
    have e3 : q.1.1 = x'.1 := eq_of_beq hqb.1
    have e4 : q.2.1 = y.1 := eq_of_beq hqb.2
    have := htf p hp q hq (e2.trans e4.symm)
    rw [e1, e3] at this
    exact this

/-- Witness for the move-count theorem, at the diff of `SELECT a, b, c`
against `SELECT c, a, b`: for the matched pair of selection roots the move
count equals the three children minus the two aligned ones. -/
theorem move_count_equals_length_minus_lcs_witness :
    (moveEdits (correspondence selectABC selectCAB [])
        (([] : Path), selectABC) (([] : Path), selectCAB)).length =
      (kidsLoc (([] : Path), selectABC)).length -
        (lcsPairs (corrRel (correspondence selectABC selectCAB []))
          (kidsLoc (([] : Path), selectABC))
          (kidsLoc (([] : Path), selectCAB))).length :=
  (move_count_equals_length_minus_lcs (correspondence selectABC selectCAB [])
    (([] : Path), selectABC) (([] : Path), selectCAB)
    (by decide) (by decide) (by decide)).1

/-! ### Idempotence: a tree diffed against itself -/


theorem occOf_append (v : Node) (a b : List Loc) :
    occOf v (a ++ b) = occOf v a + occOf v b := by
  simp [occOf, List.filter_append]

theorem withOccAux_lower (l : List Loc) :
    ∀ (seen : List Loc) (yc : Loc × Nat), yc ∈ withOccAux seen l →
      occOf yc.1.2 seen ≤ yc.2 := by
  induction l with
  | nil => intro seen yc h; cases h
  | cons x xs ih =>
    intro seen yc h
    rcases List.mem_cons.1 h with h | h
    · rw [h]
    · have := ih (seen ++ [x]) yc h
      have hmono : occOf yc.1.2 seen ≤ occOf yc.1.2 (seen ++ [x]) := by
        rw [occOf_append]
        omega
      omega

theorem withOccAux_find_self (l : List Loc) :
    ∀ (seen : List Loc) (sk : Loc × Nat), sk ∈ withOccAux seen l →
      (withOccAux seen l).find? (fun tk => tk.1.2 == sk.1.2 && tk.2 == sk.2) =
        some sk := by
  induction l with
  | nil => intro seen sk h; cases h
  | cons x xs ih =>
    intro seen sk h
    rcases List.mem_cons.1 h with hh | ht
    · rw [withOccAux, hh]
      exact List.find?_cons_of_pos _ (by simp)
    · rw [withOccAux, List.find?_cons_of_neg]
      · exact ih (seen ++ [x]) sk ht
      · simp only [Bool.and_eq_true, beq_iff_eq, not_and]
        intro hv hcon
        have hge := withOccAux_lower xs (seen ++ [x]) sk ht
        rw [occOf_append] at hge
        have hone : occOf sk.1.2 [x] = 1 := by
          simp [occOf, hv]
        rw [hv] at hcon
        omega

theorem withOccAux_map_fst (l : List Loc) :
    ∀ seen : List Loc, (withOccAux seen l).map Prod.fst = l := by
  induction l with
  | nil => intro seen; rfl
  | cons x xs ih => intro seen; simp [withOccAux, ih]

theorem withOcc_find_self (P : List Loc) (sk : Loc × Nat) (hsk : sk ∈ withOcc P) :
    (withOcc P).find? (fun tk => tk.1.2 == sk.1.2 && tk.2 == sk.2) = some sk :=
  withOccAux_find_self P [] sk hsk

theorem withOcc_map_fst (P : List Loc) : (withOcc P).map Prod.fst = P :=
  withOccAux_map_fst P []

theorem filterMap_eq_map_of_some {α β : Type} (f : α → Option β) (g : α → β)
    (l : List α) (h : ∀ a ∈ l, f a = some (g a)) : l.filterMap f = l.map g := by
  induction l with
  | nil => rfl
  | cons x xs ih =>
    rw [List.filterMap_cons, h x (List.mem_cons_self _ _), List.map_cons,
      ih (fun a ha => h a (List.mem_cons_of_mem _ ha))]

theorem exactPairs_self (P : List Loc) :
    exactPairs P P = P.map (fun x => (x, x)) := by
  rw [exactPairs]
  refine Eq.trans (filterMap_eq_map_of_some _ (fun sk : Loc × Nat => (sk.1, sk.1)) _ ?_) ?_
  · intro sk hsk
    rw [withOcc_find_self P sk hsk]
  · have hco : (fun sk : Loc × Nat => (sk.1, sk.1)) =
        ((fun x : Loc => (x, x)) ∘ Prod.fst) := rfl
    rw [hco, ← List.map_map, withOcc_map_fst]


theorem correspondence_self (T : Node) :
    correspondence T T [] = (preorderNode [] T).map (fun x => (x, x)) := by
  have hnil : ∀ y : Loc, (([] : List Path).contains y.1) = false := fun y => rfl
  simp only [correspondence, resolvePre, List.filterMap_nil, List.map_nil,
    List.nil_append, hnil, Bool.not_false, List.filter_true, exactPairs_self]
  have hsrc : (preorderNode [] T).filter (fun x =>
      !(sourcePaths ((preorderNode [] T).map (fun x => (x, x)))).contains x.1) = [] := by
    refine List.filter_eq_nil_iff.2 ?_
    intro x hx
    have hmem : x.1 ∈ sourcePaths ((preorderNode [] T).map (fun x => (x, x))) := by
      rw [sourcePaths, List.map_map]
      exact List.mem_map.2 ⟨x, hx, rfl⟩
    simp only [List.contains_eq_any_beq, Bool.not_eq_true, Bool.not_eq_false]
    rw [List.any_eq_true.2 ⟨x.1, hmem, beq_self_eq_true _⟩]
    rfl
  have htgt : (preorderNode [] T).filter (fun y =>
      !(targetPaths ((preorderNode [] T).map (fun x => (x, x)))).contains y.1) = [] := by
    refine List.filter_eq_nil_iff.2 ?_
    intro x hx
    have hmem : x.1 ∈ targetPaths ((preorderNode [] T).map (fun x => (x, x))) := by
      rw [targetPaths, List.map_map]
      exact List.mem_map.2 ⟨x, hx, rfl⟩
    simp only [List.contains_eq_any_beq, Bool.not_eq_true, Bool.not_eq_false]
    rw [List.any_eq_true.2 ⟨x.1, hmem, beq_self_eq_true _⟩]
    rfl
  rw [hsrc, htgt]
  simp [greedy]


theorem mem_preorderKids_of_get : ∀ (ts : NodeList) (q : Path) (i j : Nat)
    (kid : Node), ts.toList[j]? = some kid → (q ++ [i + j], kid) ∈ preorderKids q i ts
  | .nil => by intro q i j kid h; simp [NodeList.toList] at h
  | .cons hd tl => by
    intro q i j kid h
    cases j with
    | zero =>
      simp only [NodeList.toList, List.getElem?_cons_zero, Option.some.injEq] at h
      rw [preorderKids]
      refine List.mem_append_left _ ?_
      rw [← h]
      cases hd with
      | mk tg sc kids =>
        rw [preorderNode]
        exact List.mem_cons_self _ _
    | succ j =>
      simp only [NodeList.toList, List.getElem?_cons_succ] at h
      rw [preorderKids]
      refine List.mem_append_right _ ?_
      have hmem := mem_preorderKids_of_get tl q (i + 1) j kid h
      rw [show i + (j + 1) = (i + 1) + j by omega]
      exact hmem

mutual

theorem kidsLoc_mem_preorderNode : ∀ (T : Node) (q : Path) (x : Loc),
    x ∈ preorderNode q T → ∀ k ∈ kidsLoc x, k ∈ preorderNode q T
  | .mk tg sc kids => fun q x hx k hk => by
    rw [preorderNode] at hx ⊢
    rcases List.mem_cons.1 hx with hh | ht
    · refine List.mem_cons_of_mem _ ?_
      rw [hh] at hk
      rw [kidsLoc] at hk
      obtain ⟨ik, hik, hfk⟩ := List.mem_map.1 hk
      have hget := List.mem_enum_iff_getElem?.mp hik
      have hmem := mem_preorderKids_of_get kids q 0 ik.1 ik.2 hget
      rw [← hfk]
      simpa using hmem
    · exact List.mem_cons_of_mem _ (kidsLoc_mem_preorderKids kids q 0 x ht k hk)

theorem kidsLoc_mem_preorderKids : ∀ (ts : NodeList) (q : Path) (i : Nat) (x : Loc),
    x ∈ preorderKids q i ts → ∀ k ∈ kidsLoc x, k ∈ preorderKids q i ts
  | .nil => fun q i x hx => by rw [preorderKids] at hx; cases hx
  | .cons hd tl => fun q i x hx k hk => by
    rw [preorderKids] at hx ⊢
    rcases List.mem_append.1 hx with h | h
    · exact List.mem_append_left _ (kidsLoc_mem_preorderNode hd (q ++ [i]) x h k hk)
    · exact List.mem_append_right _ (kidsLoc_mem_preorderKids tl q (i + 1) x h k hk)

end


theorem lcsAux_self_diag (m : Loc → Loc → Bool) :
    ∀ (fuel : Nat) (l : List Loc), l.length + l.length ≤ fuel →
      (∀ k ∈ l, m k k = true) → lcsAux m fuel l l = l.map (fun k => (k, k)) := by
  intro fuel
  induction fuel with
  | zero =>
    intro l h hall
    have hl : l = [] := by
      cases l with
      | nil => rfl
      | cons a as => simp at h
    rw [hl]
    rfl
  | succ fuel ih =>
    intro l h hall
    cases l with
    | nil => rfl
    | cons k ks =>
      simp only [lcsAux]
      rw [if_pos (hall k (List.mem_cons_self _ _))]
      rw [ih ks (by simp only [List.length_cons] at h; omega)
        (fun a ha => hall a (List.mem_cons_of_mem _ ha))]
      rfl

theorem moveEdits_self_nil (T : Node) (x : Loc) (hx : x ∈ preorderNode [] T) :
    moveEdits ((preorderNode [] T).map (fun z => (z, z))) x x = [] := by
  have hdiag : ∀ k ∈ kidsLoc x,
      corrRel ((preorderNode [] T).map (fun z => (z, z))) k k = true := by
    intro k hk
    have hkmem : k ∈ preorderNode [] T := kidsLoc_mem_preorderNode T [] x hx k hk
    rw [corrRel]
    refine List.any_eq_true.2 ⟨(k, k), List.mem_map.2 ⟨k, hkmem, rfl⟩, ?_⟩
    simp
  simp only [moveEdits, lcsPairs]
  have hlcs : lcsAux (corrRel ((preorderNode [] T).map (fun z => (z, z))))
      ((kidsLoc x).length + (kidsLoc x).length) (kidsLoc x) (kidsLoc x) =
      (kidsLoc x).map (fun k => (k, k)) :=
    lcsAux_self_diag _ _ _ (Nat.le_refl _) hdiag
  simp only [hlcs]
  refine List.filterMap_eq_nil_iff.2 ?_
  intro k hk
  rw [if_pos ?hc]
  case hc =>
    refine List.any_eq_true.2 ⟨(k, k), List.mem_map.2 ⟨k, hk, rfl⟩, ?_⟩
    exact beq_self_eq_true _

theorem editScript_self_keeps (T : Node) :
    ∀ e ∈ editScript T T [], e.isKeep = true := by
  intro e he
  simp only [editScript, correspondence_self, List.mem_append] at he
  have hsrc : (preorderNode [] T).filter (fun x =>
      !(sourcePaths ((preorderNode [] T).map (fun x => (x, x)))).contains x.1) = [] := by
    refine List.filter_eq_nil_iff.2 ?_
    intro x hx
    have hmem : x.1 ∈ sourcePaths ((preorderNode [] T).map (fun x => (x, x))) := by
      rw [sourcePaths, List.map_map]
      exact List.mem_map.2 ⟨x, hx, rfl⟩
    simp only [List.contains_eq_any_beq, Bool.not_eq_true, Bool.not_eq_false]
    rw [List.any_eq_true.2 ⟨x.1, hmem, beq_self_eq_true _⟩]
    rfl
  have htgt : (preorderNode [] T).filter (fun y =>
      !(targetPaths ((preorderNode [] T).map (fun x => (x, x)))).contains y.1) = [] := by
    refine List.filter_eq_nil_iff.2 ?_
    intro x hx
    have hmem : x.1 ∈ targetPaths ((preorderNode [] T).map (fun x => (x, x))) := by
      rw [targetPaths, List.map_map]
      exact List.mem_map.2 ⟨x, hx, rfl⟩
    simp only [List.contains_eq_any_beq, Bool.not_eq_true, Bool.not_eq_false]
    rw [List.any_eq_true.2 ⟨x.1, hmem, beq_self_eq_true _⟩]
    rfl
  rw [hsrc, htgt] at he
  simp only [List.map_nil, List.not_mem_nil, false_or, or_false] at he
  obtain ⟨pr, hpr, hops⟩ := (mem_foldr_pairOps _ _ _).1 he
  obtain ⟨z, hz, hzeq⟩ := List.mem_map.1 hpr
  rw [← hzeq] at hops
  simp only [pairOps] at hops
  rw [if_pos (beq_self_eq_true _)] at hops
  rw [moveEdits_self_nil T z hz] at hops
  rcases List.mem_cons.1 hops with h | h
  · rw [h]; rfl
  · cases h

theorem diff_self_delta_empty (T : Node) (d : Option String) :
    diff T T [] d true = .ok [] := by
  rw [diff]
  rw [if_neg (by simp [hasDupPaths])]
  have hfil : (editScript T T []).filter (fun e => !(true && e.isKeep)) = [] := by
    refine List.filter_eq_nil_iff.2 ?_
    intro e he
    rw [editScript_self_keeps T e he]
    simp
  rw [hfil]


/-- C4: diffing a tree against a structurally identical fresh copy — in the
model structural identity is equality of values — yields no operation other
than keep: the whole edit script consists of keep operations, and under
delta-only mode the result is empty. -/
theorem diff_identical_trees_keep_only (T : Node) (d : Option String) :
    diff T T [] d true = .ok [] ∧ ∀ e ∈ editScript T T [], e.isKeep = true :=
  ⟨diff_self_delta_empty T d, editScript_self_keeps T⟩

/-- Witness for the idempotence theorem at `SELECT a + b`: the delta-only
diff of the tree against itself is empty, and the keep of the root pair is
in the full edit script. -/
theorem diff_identical_trees_keep_only_witness :
    diff selectAddAB selectAddAB [] none true = .ok [] ∧
    (Edit.keep (([] : Path), selectAddAB) (([] : Path), selectAddAB)).isKeep = true :=
  ⟨(diff_identical_trees_keep_only selectAddAB none).1,
    (diff_identical_trees_keep_only selectAddAB none).2
      (Edit.keep ([], selectAddAB) ([], selectAddAB)) (by decide)⟩


mutual

theorem preorderNode_prefix : ∀ (T : Node) (q : Path) (x : Loc),
    x ∈ preorderNode q T → ∃ r, x.1 = q ++ r
  | .mk tg sc kids => fun q x hx => by
    rw [preorderNode] at hx
    rcases List.mem_cons.1 hx with hh | ht
    · exact ⟨[], by rw [hh, List.append_nil]⟩
    · obtain ⟨j, r, _, hr⟩ := preorderKids_shape kids q 0 x ht
      exact ⟨j :: r, hr⟩

theorem preorderKids_shape : ∀ (ts : NodeList) (q : Path) (i : Nat) (x : Loc),
    x ∈ preorderKids q i ts → ∃ j r, i ≤ j ∧ x.1 = q ++ j :: r
  | .nil => fun q i x hx => by rw [preorderKids] at hx; cases hx
  | .cons hd tl => fun q i x hx => by
    rw [preorderKids] at hx
    rcases List.mem_append.1 hx with h | h
    · obtain ⟨r, hr⟩ := preorderNode_prefix hd (q ++ [i]) x h
      exact ⟨i, r, Nat.le_refl _, by rw [hr, List.append_assoc]; rfl⟩
    · obtain ⟨j, r, hij, hr⟩ := preorderKids_shape tl q (i + 1) x h
      exact ⟨j, r, by omega, hr⟩

end

mutual

theorem preorderNode_paths_nodup : ∀ (T : Node) (q : Path),
    ((preorderNode q T).map Prod.fst).Nodup
  | .mk tg sc kids => fun q => by
    rw [preorderNode, List.map_cons, List.nodup_cons]
    constructor
    · intro hmem
      obtain ⟨x, hx, hxq⟩ := List.mem_map.1 hmem
      obtain ⟨j, r, _, hr⟩ := preorderKids_shape kids q 0 x hx
      rw [hxq] at hr
      have hlen := congrArg List.length hr
      simp at hlen
    · exact preorderKids_paths_nodup kids q 0

theorem preorderKids_paths_nodup : ∀ (ts : NodeList) (q : Path) (i : Nat),
    ((preorderKids q i ts).map Prod.fst).Nodup
  | .nil => fun q i => by rw [preorderKids]; exact List.nodup_nil
  | .cons hd tl => fun q i => by
    rw [preorderKids, List.map_append]
    refine List.Nodup.append (preorderNode_paths_nodup hd (q ++ [i]))
      (preorderKids_paths_nodup tl q (i + 1)) ?_
    intro p hp1 hp2
    obtain ⟨x, hx, hxp⟩ := List.mem_map.1 hp1
    obtain ⟨y, hy, hyp⟩ := List.mem_map.1 hp2
    obtain ⟨r, hr⟩ := preorderNode_prefix hd (q ++ [i]) x hx
    obtain ⟨j, r', hij, hr'⟩ := preorderKids_shape tl q (i + 1) y hy
    rw [hxp] at hr
    rw [hyp] at hr'
    rw [hr'] at hr
    rw [List.append_assoc] at hr
    have := List.append_cancel_left hr
    injection this with h1 _
    omega

end

theorem preorder_paths_nodup (T : Node) :
    ((preorderNode [] T).map Prod.fst).Nodup :=
  preorderNode_paths_nodup T []


theorem withOcc_unique (V : List Loc) (a b : Loc × Nat)
    (ha : a ∈ withOcc V) (hb : b ∈ withOcc V) (hv : a.1.2 = b.1.2)
    (hk : a.2 = b.2) : a = b := by
  have h1 := withOcc_find_self V a ha
  have h2 := withOcc_find_self V b hb
  have hpe : (fun tk : Loc × Nat => tk.1.2 == a.1.2 && tk.2 == a.2) =
      (fun tk : Loc × Nat => tk.1.2 == b.1.2 && tk.2 == b.2) := by
    rw [hv, hk]
  rw [hpe, h2] at h1
  injection h1 with h1
  exact h1.symm

theorem mem_exactPairs_iff (U V : List Loc) (s t : Loc) :
    (s, t) ∈ exactPairs U V ↔
      ∃ k, (s, k) ∈ withOcc U ∧ (t, k) ∈ withOcc V ∧ t.2 = s.2 := by
  rw [exactPairs]
  constructor
  · intro h
    obtain ⟨⟨s1, k⟩, hsk, hf⟩ := List.mem_filterMap.1 h
    cases hfind : (withOcc V).find?
        (fun tk => tk.1.2 == (s1, k).1.2 && tk.2 == (s1, k).2) with
    | none => rw [hfind] at hf; cases hf
    | some tk =>
      rw [hfind] at hf
      injection hf with hf
      have hs : s1 = s := congrArg Prod.fst hf
      have ht : tk.1 = t := congrArg Prod.snd hf
      have hp := List.find?_some hfind
      rw [Bool.and_eq_true] at hp
      have hmem := List.mem_of_find?_eq_some hfind
      refine ⟨k, by rw [← hs]; exact hsk, ?_, ?_⟩
      · have hocc : tk.2 = k := eq_of_beq hp.2
        have : tk = (t, k) := by
          cases tk with
          | mk tk1 tk2 =>
            simp only at ht hocc
            rw [ht, hocc]
        rw [← this]
        exact hmem
      · have := eq_of_beq hp.1
        rw [ht, hs] at this
        exact this
  · rintro ⟨k, hsU, htV, hts⟩
    refine List.mem_filterMap.2 ⟨(s, k), hsU, ?_⟩
    have hfind : (withOcc V).find?
        (fun tk => tk.1.2 == (s, k).1.2 && tk.2 == (s, k).2) = some (t, k) := by
      cases hfind : (withOcc V).find?
          (fun tk => tk.1.2 == (s, k).1.2 && tk.2 == (s, k).2) with
      | none =>
        exfalso
        have hiso : ((withOcc V).find?
            (fun tk => tk.1.2 == (s, k).1.2 && tk.2 == (s, k).2)).isSome = true := by
          rw [List.find?_isSome]
          refine ⟨(t, k), htV, ?_⟩
          rw [Bool.and_eq_true]
          exact ⟨by rw [beq_iff_eq]; exact hts, beq_self_eq_true _⟩
        rw [hfind] at hiso
        cases hiso
      | some u =>
        have hpu := List.find?_some hfind
        rw [Bool.and_eq_true] at hpu
        have hmu := List.mem_of_find?_eq_some hfind
        have hu : u = (t, k) := by
          refine withOcc_unique V u (t, k) hmu htV ?_ ?_
          · have h1 := eq_of_beq hpu.1
            simp only at h1 ⊢
            rw [h1, hts]
          · exact eq_of_beq hpu.2
        rw [hu]
    rw [hfind]


theorem find?_some_split {α : Type} (p : α → Bool) :
    ∀ (l : List α) (a : α), l.find? p = some a →
      ∃ as bs, l = as ++ a :: bs ∧ ∀ x ∈ as, p x = false := by
  intro l
  induction l with
  | nil => intro a h; cases h
  | cons x xs ih =>
    intro a h
    by_cases hp : p x = true
    · rw [List.find?_cons_of_pos _ hp] at h
      injection h with h
      refine ⟨[], xs, by rw [h]; rfl, ?_⟩
      intro y hy
      cases hy
    · rw [List.find?_cons_of_neg _ hp] at h
      obtain ⟨as, bs, hl, has⟩ := ih a h
      refine ⟨x :: as, bs, by rw [hl]; rfl, ?_⟩
      intro y hy
      rcases List.mem_cons.1 hy with hy | hy
      · rw [hy]
        exact Bool.eq_false_iff.2 (fun hc => hp hc)
      · exact has y hy

theorem greedy_cols_empty (F : Loc → Loc → Bool) :
    ∀ cols : List Loc, greedy F cols [] = [] := by
  intro cols
  induction cols with
  | nil => rfl
  | cons c cs ih =>
    rw [greedy]
    rw [show (List.find? (F c) [] : Option Loc) = none from rfl]
    exact ih

theorem greedy_skip_isolated (E : Loc → Loc → Bool) (r₀ : Loc) :
    ∀ (cols rows : List Loc), (∀ c ∈ cols, E r₀ c = false) →
      greedy (fun c r => E r c) cols (r₀ :: rows) =
        greedy (fun c r => E r c) cols rows := by
  intro cols
  induction cols with
  | nil => intro rows _; rfl
  | cons c cs ih =>
    intro rows h
    rw [greedy, greedy]
    have hhead : E r₀ c = false := h c (List.mem_cons_self _ _)
    rw [@List.find?_cons_of_neg Loc (fun r => E r c) r₀ rows (by
      simp only [hhead]
      exact Bool.false_ne_true)]
    cases hf : rows.find? (fun r => E r c) with
    | none =>
      simp only [hf]
      exact ih rows (fun c' hc' => h c' (List.mem_cons_of_mem _ hc'))
    | some r =>
      have hrne : ¬ (r₀ == r) = true := by
        rw [beq_iff_eq]
        intro hcon
        have hp := List.find?_some hf
        rw [← hcon] at hp
        rw [hhead] at hp
        cases hp
      simp only [hf]
      rw [List.erase_cons_tail hrne]
      rw [ih (rows.erase r) (fun c' hc' => h c' (List.mem_cons_of_mem _ hc'))]

theorem greedy_pivot (E : Loc → Loc → Bool) (r₀ c₀ : Loc)
    (hr₀c₀ : E r₀ c₀ = true) :
    ∀ (as : List Loc), (∀ c ∈ as, E r₀ c = false) → ∀ (bs rows : List Loc)
      (p : Loc × Loc), p ∈ greedy (fun c r => E r c) (as ++ c₀ :: bs) (r₀ :: rows) ↔
        (p = (c₀, r₀) ∨ p ∈ greedy (fun c r => E r c) (as ++ bs) rows) := by
  intro as
  induction as with
  | nil =>
    intro _ bs rows p
    simp only [List.nil_append]
    rw [greedy]
    rw [@List.find?_cons_of_pos Loc (fun r => E r c₀) r₀ rows hr₀c₀]
    dsimp only
    rw [List.erase_cons_head]
    exact List.mem_cons
  | cons a as ih =>
    intro h bs rows p
    rw [List.cons_append, greedy, List.cons_append, greedy]
    have hhead : E r₀ a = false := h a (List.mem_cons_self _ _)
    rw [@List.find?_cons_of_neg Loc (fun r => E r a) r₀ rows (by
      simp only [hhead]
      exact Bool.false_ne_true)]
    have htail : ∀ c ∈ as, E r₀ c = false :=
      fun c hc => h c (List.mem_cons_of_mem _ hc)
    cases hf : rows.find? (fun r => E r a) with
    | none =>
      simp only [hf]
      exact ih htail bs rows p
    | some r =>
      have hrne : ¬ (r₀ == r) = true := by
        rw [beq_iff_eq]
        intro hcon
        have hp := List.find?_some hf
        rw [← hcon] at hp
        rw [hhead] at hp
        cases hp
      simp only [hf]
      rw [List.erase_cons_tail hrne]
      rw [List.mem_cons, List.mem_cons]
      rw [ih htail bs (rows.erase r) p]
      tauto

theorem greedy_transpose (E : Loc → Loc → Bool) :
    ∀ (rows cols : List Loc), cols.Nodup →
      ∀ p : Loc × Loc, p ∈ greedy E rows cols ↔
        (p.2, p.1) ∈ greedy (fun c r => E r c) cols rows := by
  intro rows
  induction rows with
  | nil =>
    intro cols _ p
    rw [greedy_cols_empty]
    simp [greedy]
  | cons r₀ rs ih =>
    intro cols hnd p
    rw [greedy]
    cases hf : cols.find? (E r₀) with
    | none =>
      simp only [hf]
      rw [greedy_skip_isolated E r₀ cols rs
        (fun c hc => by
          have := List.find?_eq_none.1 hf c hc
          exact Bool.eq_false_iff.2 this)]
      exact ih cols hnd p
    | some c₀ =>
      have hp₀ := List.find?_some hf
      obtain ⟨as, bs, hcols, has⟩ := find?_some_split (E r₀) cols c₀ hf
      subst hcols
      have hc₀as : c₀ ∉ as := by
        intro hmem
        have := has c₀ hmem
        rw [hp₀] at this
        cases this
      have herase : (as ++ c₀ :: bs).erase c₀ = as ++ bs := by
        rw [List.erase_append_right _ hc₀as, List.erase_cons_head]
      simp only [hf]
      rw [herase, List.mem_cons]
      have hndab : (as ++ bs).Nodup := by
        have := hnd.erase c₀
        rwa [herase] at this
      rw [ih (as ++ bs) hndab p]
      rw [greedy_pivot E r₀ c₀ hp₀ as has bs rs (p.2, p.1)]
      constructor
      · rintro (hpe | hmem)
        · left
          rw [hpe]
        · right
          exact hmem
      · rintro (hpe | hmem)
        · left
          have h1 : p.1 = r₀ := congrArg Prod.snd hpe
          have h2 : p.2 = c₀ := congrArg Prod.fst hpe
          cases p with
          | mk p1 p2 =>
            simp only at h1 h2
            rw [h1, h2]
        · right
          exact hmem


theorem exactPairs_sources_sublist (U V : List Loc) :
    ((exactPairs U V).map Prod.fst).Sublist U := by
  have h : ∀ (l : List (Loc × Nat)),
      ((l.filterMap (fun sk =>
        match (withOcc V).find? (fun tk => tk.1.2 == sk.1.2 && tk.2 == sk.2) with
        | some tk => some (sk.1, tk.1)
        | none => none)).map Prod.fst).Sublist (l.map Prod.fst) := by
    intro l
    induction l with
    | nil => exact List.Sublist.refl _
    | cons sk l ih =>
      rw [List.filterMap_cons, List.map_cons]
      cases hfind : (withOcc V).find?
          (fun tk => tk.1.2 == sk.1.2 && tk.2 == sk.2) with
      | none => exact ih.trans (List.sublist_cons_self _ _)
      | some tk =>
        rw [List.map_cons]
        exact List.cons_sublist_cons.2 ih
  have := h (withOcc U)
  rw [withOcc_map_fst] at this
  exact this

theorem exactPairs_nodup (U V : List Loc) (hU : U.Nodup) :
    (exactPairs U V).Nodup :=
  List.Nodup.of_map Prod.fst ((exactPairs_sources_sublist U V).nodup hU)

theorem mem_map_swap (l : List (Loc × Loc)) (pr : Loc × Loc) :
    pr ∈ l.map (fun q : Loc × Loc => (q.2, q.1)) ↔ (pr.2, pr.1) ∈ l := by
  rw [List.mem_map]
  constructor
  · rintro ⟨q, hq, hqe⟩
    have h1 : pr.1 = q.2 := (congrArg Prod.fst hqe).symm
    have h2 : pr.2 = q.1 := (congrArg Prod.snd hqe).symm
    rw [h1, h2]
    cases q
    exact hq
  · intro h
    exact ⟨(pr.2, pr.1), h, rfl⟩

theorem exactPairs_transpose_mem (U V : List Loc) (pr : Loc × Loc) :
    pr ∈ exactPairs V U ↔ (pr.2, pr.1) ∈ exactPairs U V := by
  cases pr with
  | mk t s =>
    rw [mem_exactPairs_iff, mem_exactPairs_iff]
    constructor
    · rintro ⟨k, h1, h2, h3⟩
      exact ⟨k, h2, h1, h3.symm⟩
    · rintro ⟨k, h1, h2, h3⟩
      exact ⟨k, h2, h1, h3.symm⟩

theorem exactPairs_transpose_perm (U V : List Loc) (hU : U.Nodup) (hV : V.Nodup) :
    (exactPairs V U).Perm ((exactPairs U V).map (fun q : Loc × Loc => (q.2, q.1))) := by
  refine (List.perm_ext_iff_of_nodup (exactPairs_nodup V U hV) ?_).2 ?_
  · refine List.Nodup.map ?_ (exactPairs_nodup U V hU)
    intro a b hab
    have h1 : a.2 = b.2 := congrArg Prod.fst hab
    have h2 : a.1 = b.1 := congrArg Prod.snd hab
    cases a
    cases b
    simp only at h1 h2
    rw [h1, h2]
  · intro pr
    rw [mem_map_swap]
    exact exactPairs_transpose_mem U V pr


theorem commonLeafCount_transpose (A B : Node) (s t : Loc) :
    commonLeafCount (exactPairs (preorderNode [] B) (preorderNode [] A)) t s =
      commonLeafCount (exactPairs (preorderNode [] A) (preorderNode [] B)) s t := by
  have hPnd : (preorderNode [] A).Nodup :=
    List.Nodup.of_map Prod.fst (preorder_paths_nodup A)
  have hQnd : (preorderNode [] B).Nodup :=
    List.Nodup.of_map Prod.fst (preorder_paths_nodup B)
  rw [commonLeafCount, commonLeafCount]
  have hperm := exactPairs_transpose_perm (preorderNode [] A) (preorderNode [] B)
    hPnd hQnd
  rw [(hperm.filter (fun pr =>
    ((leavesUnder t).map Prod.fst).contains pr.1.1 &&
      ((leavesUnder s).map Prod.fst).contains pr.2.1)).length_eq]
  rw [List.filter_map, List.length_map]
  congr 1
  refine List.filter_congr ?_
  intro q _
  exact Bool.and_comm _ _

theorem candidate_transpose (A B : Node) (s t : Loc) :
    candidate (exactPairs (preorderNode [] B) (preorderNode [] A)) t s =
      candidate (exactPairs (preorderNode [] A) (preorderNode [] B)) s t := by
  rw [candidate, candidate, commonLeafCount_transpose]
  have htag : (t.2.tag == s.2.tag) = (s.2.tag == t.2.tag) := by
    rw [Bool.eq_iff_iff, beq_iff_eq, beq_iff_eq]
    exact eq_comm
  rw [htag, Nat.max_comm]

theorem contains_eq_of_mem_iff (l₁ l₂ : List Path) (p : Path)
    (h : p ∈ l₁ ↔ p ∈ l₂) : l₁.contains p = l₂.contains p := by
  rw [List.contains_eq_any_beq, List.contains_eq_any_beq]
  by_cases hm : p ∈ l₂
  · rw [List.any_eq_true.2 ⟨p, hm, beq_self_eq_true _⟩,
      List.any_eq_true.2 ⟨p, h.2 hm, beq_self_eq_true _⟩]
  · have h1 : l₁.any (fun x => p == x) = false := by
      rw [Bool.eq_false_iff]
      intro hc
      obtain ⟨x, hx, hpx⟩ := List.any_eq_true.1 hc
      rw [← eq_of_beq hpx] at hx
      exact hm (h.1 hx)
    have h2 : l₂.any (fun x => p == x) = false := by
      rw [Bool.eq_false_iff]
      intro hc
      obtain ⟨x, hx, hpx⟩ := List.any_eq_true.1 hc
      rw [← eq_of_beq hpx] at hx
      exact hm hx
    rw [h1, h2]

theorem sourcePaths_exact_transpose (A B : Node) (p : Path) :
    (sourcePaths (exactPairs (preorderNode [] B) (preorderNode [] A))).contains p =
      (targetPaths (exactPairs (preorderNode [] A) (preorderNode [] B))).contains p := by
  refine contains_eq_of_mem_iff _ _ _ ?_
  rw [sourcePaths, targetPaths]
  constructor
  · intro h
    obtain ⟨pr, hpr, hpe⟩ := List.mem_map.1 h
    have := (exactPairs_transpose_mem _ _ pr).1 hpr
    exact List.mem_map.2 ⟨(pr.2, pr.1), this, hpe⟩
  · intro h
    obtain ⟨pr, hpr, hpe⟩ := List.mem_map.1 h
    have := (exactPairs_transpose_mem _ _ (pr.2, pr.1)).2 (by
      cases pr
      exact hpr)
    exact List.mem_map.2 ⟨(pr.2, pr.1), this, hpe⟩

theorem targetPaths_exact_transpose (A B : Node) (p : Path) :
    (targetPaths (exactPairs (preorderNode [] B) (preorderNode [] A))).contains p =
      (sourcePaths (exactPairs (preorderNode [] A) (preorderNode [] B))).contains p := by
  refine contains_eq_of_mem_iff _ _ _ ?_
  rw [sourcePaths, targetPaths]
  constructor
  · intro h
    obtain ⟨pr, hpr, hpe⟩ := List.mem_map.1 h
    have := (exactPairs_transpose_mem _ _ pr).1 hpr
    exact List.mem_map.2 ⟨(pr.2, pr.1), this, hpe⟩
  · intro h
    obtain ⟨pr, hpr, hpe⟩ := List.mem_map.1 h
    have := (exactPairs_transpose_mem _ _ (pr.2, pr.1)).2 (by
      cases pr
      exact hpr)
    exact List.mem_map.2 ⟨(pr.2, pr.1), this, hpe⟩


theorem correspondence_nil (A B : Node) :
    correspondence A B [] =
      exactPairs (preorderNode [] A) (preorderNode [] B) ++
        greedy (candidate (exactPairs (preorderNode [] A) (preorderNode [] B)))
          ((preorderNode [] A).filter fun x =>
            !(sourcePaths (exactPairs (preorderNode [] A)
              (preorderNode [] B))).contains x.1)
          ((preorderNode [] B).filter fun y =>
            !(targetPaths (exactPairs (preorderNode [] A)
              (preorderNode [] B))).contains y.1) := by
  have hnil : ∀ y : Loc, (([] : List Path).contains y.1) = false := fun y => rfl
  simp only [correspondence, resolvePre, List.filterMap_nil, List.map_nil,
    List.nil_append, hnil, Bool.not_false, List.filter_true]

theorem correspondence_transpose (A B : Node) (pr : Loc × Loc) :
    pr ∈ correspondence B A [] ↔ (pr.2, pr.1) ∈ correspondence A B [] := by
  rw [correspondence_nil, correspondence_nil, List.mem_append, List.mem_append]
  have hrows : ((preorderNode [] B).filter fun x =>
      !(sourcePaths (exactPairs (preorderNode [] B)
        (preorderNode [] A))).contains x.1) =
      ((preorderNode [] B).filter fun y =>
        !(targetPaths (exactPairs (preorderNode [] A)
          (preorderNode [] B))).contains y.1) := by
    refine List.filter_congr ?_
    intro x _
    rw [sourcePaths_exact_transpose]
  have hcols : ((preorderNode [] A).filter fun y =>
      !(targetPaths (exactPairs (preorderNode [] B)
        (preorderNode [] A))).contains y.1) =
      ((preorderNode [] A).filter fun x =>
        !(sourcePaths (exactPairs (preorderNode [] A)
          (preorderNode [] B))).contains x.1) := by
    refine List.filter_congr ?_
    intro x _
    rw [targetPaths_exact_transpose]
  have hE : candidate (exactPairs (preorderNode [] B) (preorderNode [] A)) =
      (fun c r => candidate (exactPairs (preorderNode [] A)
        (preorderNode [] B)) r c) := by
    funext u v
    exact candidate_transpose A B v u
  rw [hrows, hcols, hE]
  have hndB : (((preorderNode [] B)).filter fun y =>
      !(targetPaths (exactPairs (preorderNode [] A)
        (preorderNode [] B))).contains y.1).Nodup :=
    (List.Nodup.of_map Prod.fst (preorder_paths_nodup B)).filter _
  have hgt := greedy_transpose
    (candidate (exactPairs (preorderNode [] A) (preorderNode [] B)))
    ((preorderNode [] A).filter fun x =>
      !(sourcePaths (exactPairs (preorderNode [] A)
        (preorderNode [] B))).contains x.1)
    ((preorderNode [] B).filter fun y =>
      !(targetPaths (exactPairs (preorderNode [] A)
        (preorderNode [] B))).contains y.1)
    hndB (pr.2, pr.1)
  constructor
  · rintro (h | h)
    · exact Or.inl ((exactPairs_transpose_mem _ _ pr).1 h)
    · right
      refine hgt.2 ?_
      cases pr
      exact h
  · rintro (h | h)
    · exact Or.inl ((exactPairs_transpose_mem _ _ pr).2 h)
    · right
      have hh := hgt.1 h
      cases pr
      exact hh


theorem corr_sourcePaths_transpose (A B : Node) (p : Path) :
    (sourcePaths (correspondence B A [])).contains p =
      (targetPaths (correspondence A B [])).contains p := by
  refine contains_eq_of_mem_iff _ _ _ ?_
  rw [sourcePaths, targetPaths]
  constructor
  · intro h
    obtain ⟨pr, hpr, hpe⟩ := List.mem_map.1 h
    exact List.mem_map.2 ⟨(pr.2, pr.1), (correspondence_transpose A B pr).1 hpr, hpe⟩
  · intro h
    obtain ⟨pr, hpr, hpe⟩ := List.mem_map.1 h
    refine List.mem_map.2 ⟨(pr.2, pr.1),
      (correspondence_transpose A B (pr.2, pr.1)).2 ?_, hpe⟩
    cases pr
    exact hpr

theorem corr_targetPaths_transpose (A B : Node) (p : Path) :
    (targetPaths (correspondence B A [])).contains p =
      (sourcePaths (correspondence A B [])).contains p := by
  refine contains_eq_of_mem_iff _ _ _ ?_
  rw [sourcePaths, targetPaths]
  constructor
  · intro h
    obtain ⟨pr, hpr, hpe⟩ := List.mem_map.1 h
    exact List.mem_map.2 ⟨(pr.2, pr.1), (correspondence_transpose A B pr).1 hpr, hpe⟩
  · intro h
    obtain ⟨pr, hpr, hpe⟩ := List.mem_map.1 h
    refine List.mem_map.2 ⟨(pr.2, pr.1),
      (correspondence_transpose A B (pr.2, pr.1)).2 ?_, hpe⟩
    cases pr
    exact hpr

theorem update_mem_pairOps_iff (M : List (Loc × Loc)) (s t u v : Loc) :
    Edit.update u v ∈ pairOps M s t ↔
      u = s ∧ v = t ∧ ¬ s.2 = t.2 ∧
        (s.2.tag == t.2.tag && s.2.scalars != t.2.scalars &&
          allKidsIn (sourcePaths M) s && allKidsIn (targetPaths M) t) = true := by
  rw [pairOps]
  split
  case isTrue hbeq =>
    constructor
    · intro h
      rcases List.mem_cons.1 h with h | h
      · cases h
      · obtain ⟨x, y, hm⟩ := mem_moveEdits _ _ _ _ h
        cases hm
    · rintro ⟨_, _, hne, _⟩
      exact absurd (eq_of_beq hbeq) hne
  case isFalse hbeq =>
    split
    case isTrue hcond =>
      constructor
      · intro h
        rcases List.mem_cons.1 h with h | h
        · injection h with h1 h2
          refine ⟨h1, h2, ?_, hcond⟩
          intro hcon
          exact hbeq (by rw [hcon]; exact beq_self_eq_true _)
        · cases h
      · rintro ⟨hu, hv, _, _⟩
        rw [hu, hv]
        exact List.mem_cons_self _ _
    case isFalse hcond =>
      constructor
      · intro h
        obtain ⟨x, y, hm⟩ := mem_moveEdits _ _ _ _ h
        cases hm
      · rintro ⟨_, _, _, hc⟩
        exact absurd hc hcond

theorem update_mem_editScript_iff (A B : Node) (pre : List (Path × Path)) (u v : Loc) :
    Edit.update u v ∈ editScript A B pre ↔
      (u, v) ∈ correspondence A B pre ∧ ¬ u.2 = v.2 ∧
        (u.2.tag == v.2.tag && u.2.scalars != v.2.scalars &&
          allKidsIn (sourcePaths (correspondence A B pre)) u &&
          allKidsIn (targetPaths (correspondence A B pre)) v) = true := by
  simp only [editScript, List.mem_append]
  constructor
  · rintro ((h | h) | h)
    · obtain ⟨a, _, heq⟩ := List.mem_map.1 h
      cases heq
    · obtain ⟨a, _, heq⟩ := List.mem_map.1 h
      cases heq
    · obtain ⟨pr, hpr, hm⟩ := (mem_foldr_pairOps _ _ _).1 h
      obtain ⟨hu, hv, hne, hcond⟩ := (update_mem_pairOps_iff _ _ _ _ _).1 hm
      cases pr with
      | mk p1 p2 =>
        simp only at hu hv hne hcond
        subst hu
        subst hv
        exact ⟨hpr, hne, hcond⟩
  · rintro ⟨hM, hne, hcond⟩
    refine Or.inr ((mem_foldr_pairOps _ _ _).2 ⟨(u, v), hM, ?_⟩)
    exact (update_mem_pairOps_iff _ _ _ _ _).2 ⟨rfl, rfl, hne, hcond⟩


theorem beq_swap {α : Type} [BEq α] [LawfulBEq α] (a b : α) : (a == b) = (b == a) := by
  by_cases h : a = b
  · rw [h]
  · have h1 : (a == b) = false := by
      cases hc : a == b
      · rfl
      · exact absurd (eq_of_beq hc) h
    have h2 : (b == a) = false := by
      cases hc : b == a
      · rfl
      · exact absurd (eq_of_beq hc).symm h
    rw [h1, h2]

theorem bne_swap {α : Type} [BEq α] [LawfulBEq α] (a b : α) : (a != b) = (b != a) := by
  show (!(a == b)) = (!(b == a))
  rw [beq_swap]

theorem allKidsIn_source_transpose (A B : Node) (x : Loc) :
    allKidsIn (sourcePaths (correspondence B A [])) x =
      allKidsIn (targetPaths (correspondence A B [])) x := by
  rw [allKidsIn, allKidsIn]
  have hfun : (fun k : Loc => (sourcePaths (correspondence B A [])).contains k.1) =
      (fun k : Loc => (targetPaths (correspondence A B [])).contains k.1) :=
    funext fun k => corr_sourcePaths_transpose A B k.1
  rw [hfun]

theorem allKidsIn_target_transpose (A B : Node) (x : Loc) :
    allKidsIn (targetPaths (correspondence B A [])) x =
      allKidsIn (sourcePaths (correspondence A B [])) x := by
  rw [allKidsIn, allKidsIn]
  have hfun : (fun k : Loc => (targetPaths (correspondence B A [])).contains k.1) =
      (fun k : Loc => (sourcePaths (correspondence A B [])).contains k.1) :=
    funext fun k => corr_targetPaths_transpose A B k.1
  rw [hfun]

theorem remove_swap (A B : Node) (x : Loc) :
    Edit.remove x ∈ editScript B A [] ↔ Edit.insert x ∈ editScript A B [] := by
  rw [remove_mem_editScript_iff, insert_mem_editScript_iff, corr_sourcePaths_transpose]

theorem insert_swap (A B : Node) (y : Loc) :
    Edit.insert y ∈ editScript B A [] ↔ Edit.remove y ∈ editScript A B [] := by
  rw [remove_mem_editScript_iff, insert_mem_editScript_iff, corr_targetPaths_transpose]

theorem update_swap (A B : Node) (u v : Loc) :
    Edit.update u v ∈ editScript B A [] ↔ Edit.update v u ∈ editScript A B [] := by
  rw [update_mem_editScript_iff, update_mem_editScript_iff]
  have h1 : ((u, v) ∈ correspondence B A []) ↔ ((v, u) ∈ correspondence A B []) :=
    correspondence_transpose A B (u, v)
  have h2 : (¬ u.2 = v.2) ↔ (¬ v.2 = u.2) := not_congr eq_comm
  have h3 : (u.2.tag == v.2.tag && u.2.scalars != v.2.scalars &&
      allKidsIn (sourcePaths (correspondence B A [])) u &&
      allKidsIn (targetPaths (correspondence B A [])) v) =
      (v.2.tag == u.2.tag && v.2.scalars != u.2.scalars &&
      allKidsIn (sourcePaths (correspondence A B [])) v &&
      allKidsIn (targetPaths (correspondence A B [])) u) := by
    rw [allKidsIn_source_transpose A B u, allKidsIn_target_transpose A B v,
      beq_swap u.2.tag v.2.tag, bne_swap u.2.scalars v.2.scalars]
    generalize (v.2.tag == u.2.tag) = t
    generalize (v.2.scalars != u.2.scalars) = sc
    generalize allKidsIn (targetPaths (correspondence A B [])) u = ku
    generalize allKidsIn (sourcePaths (correspondence A B [])) v = kv
    cases t <;> cases sc <;> cases ku <;> cases kv <;> rfl
  rw [h3]
  exact and_congr h1 (and_congr h2 Iff.rfl)

theorem diff_nil_matchings (A B : Node) (d : Option String) (delta : Bool) :
    diff A B [] d delta =
      .ok ((editScript A B []).filter fun e => !(delta && e.isKeep)) := rfl

theorem mem_delta_filter (delta : Bool) (L : List Edit) (e : Edit)
    (hk : e.isKeep = false) :
    (e ∈ L.filter fun x => !(delta && x.isKeep)) ↔ e ∈ L := by
  rw [List.mem_filter]
  constructor
  · exact fun h => h.1
  · intro h
    refine ⟨h, ?_⟩
    rw [hk, Bool.and_false]
    rfl

/-- C5 amended: reversing the arguments of `diff` (with no pre-matchings) turns
every Insert into a Remove of the same node, every Remove into an Insert of the
same node, and every Update into the Update of the swapped pair; Move
operations are excluded from the correspondence, as their direction follows the
aligner's tie-break and is not transposed. -/
theorem reversed_diff_swaps_non_move_kinds (A B : Node) (d d' : Option String)
    (delta : Bool) (ops ops' : List Edit)
    (h : diff A B [] d delta = .ok ops) (h' : diff B A [] d' delta = .ok ops') :
    (∀ x, Edit.remove x ∈ ops' ↔ Edit.insert x ∈ ops) ∧
    (∀ y, Edit.insert y ∈ ops' ↔ Edit.remove y ∈ ops) ∧
    (∀ u v, Edit.update u v ∈ ops' ↔ Edit.update v u ∈ ops) := by
  rw [diff_nil_matchings] at h h'
  injection h with h
  injection h' with h'
  subst h
  subst h'
  refine ⟨fun x => ?_, fun y => ?_, fun u v => ?_⟩
  · rw [mem_delta_filter delta (editScript B A []) (Edit.remove x) rfl,
      mem_delta_filter delta (editScript A B []) (Edit.insert x) rfl]
    exact remove_swap A B x
  · rw [mem_delta_filter delta (editScript B A []) (Edit.insert y) rfl,
      mem_delta_filter delta (editScript A B []) (Edit.remove y) rfl]
    exact insert_swap A B y
  · rw [mem_delta_filter delta (editScript B A []) (Edit.update u v) rfl,
      mem_delta_filter delta (editScript A B []) (Edit.update v u) rfl]
    exact update_swap A B u v

theorem reversed_diff_swaps_non_move_kinds_witness :
    Edit.remove ([], lit "2") ∈
        [Edit.remove ([], lit "2"), Edit.insert ([], lit "1")] ↔
      Edit.insert ([], lit "2") ∈
        [Edit.remove ([], lit "1"), Edit.insert ([], lit "2")] :=
  (reversed_diff_swaps_non_move_kinds (lit "1") (lit "2") none none true
    [Edit.remove ([], lit "1"), Edit.insert ([], lit "2")]
    [Edit.remove ([], lit "2"), Edit.insert ([], lit "1")]
    rfl rfl).1 ([], lit "2")

end SqlDiff
